import Mathlib

/-!
# Parallel array primitives of `main.cpp`

A shallow embedding of the six function templates of `src/main.cpp`
(`fill`, `saxpy`, `sqrtdot`, `minvalue`, `magicfilter`, `scanner`).

* A `std::vector<T>` is a `List T`.  A read `x[i]` is `x[i]?`; an access
  outside the vector is undefined behaviour in C++ and is the result `none`
  here, so every function returns an `Option`.
* The chunk bodies (the lambdas handed to TBB) are translated statement by
  statement.  The loop `for (i = r.begin(); i < r.end(); ++i)` is `forRange`.
* TBB itself is not part of the repository.  Its algorithms are modelled by
  what they are documented to do: the iteration range is cut into chunks, the
  body is run once on each chunk, and the results are combined.  The way the
  range was cut and the order in which things happened is an explicit
  argument (`sched`) of every function, and theorems quantify over it.
  Chunk bodies of one call touch disjoint indices, or run under the mutex, so
  every concurrent execution is equivalent to one of these sequential ones.
-/

namespace Hw06

/-- The half-open index interval of `tbb::blocked_range<size_t>`. -/
structure blocked_range where
  /-- First index of the chunk, `r.begin()`. -/
  begin : Nat
  /-- One past the last index of the chunk, `r.end()`. -/
  «end» : Nat
  deriving DecidableEq, Repr

/-- Index `i` lies in the chunk `r`. -/
def blocked_range.Mem (r : blocked_range) (i : Nat) : Prop :=
  r.begin ≤ i ∧ i < r.end

instance blocked_range.decidableMem (r : blocked_range) (i : Nat) : Decidable (r.Mem i) :=
  inferInstanceAs (Decidable (r.begin ≤ i ∧ i < r.end))

/-- Two chunks share no index. -/
def blocked_range.Disj (r s : blocked_range) : Prop :=
  r.end ≤ s.begin ∨ s.end ≤ r.begin

/-- The loop `for (size_t i = b; i < b + k; ++i) s = body(i, s)`; an iteration
that fails makes the loop fail. -/
def forRange {σ : Type} (body : Nat → σ → Option σ) : Nat → Nat → σ → Option σ
  | _, 0, s => some s
  | i, k + 1, s => (body i s).bind (forRange body (i + 1) k)

/-- The loop `for (size_t i = r.begin(); i < r.end(); ++i)` over a chunk. -/
def forChunk {σ : Type} (r : blocked_range) (body : Nat → σ → Option σ) (s : σ) : Option σ :=
  forRange body r.begin (r.end - r.begin) s

/-- The function `tbb::parallel_for(range, body)`: the body is run once on every
chunk of the schedule. -/
def parallel_for {σ : Type} (sched : List blocked_range)
    (body : blocked_range → σ → Option σ) : σ → Option σ :=
  fun s => sched.foldlM (fun st r => body r st) s

/-- Chunks `cs` listed in index order that tile `[b, e)`: each starts where the
previous one stopped. -/
def isContiguous : Nat → Nat → List blocked_range → Bool
  | b, e, [] => decide (b = e)
  | b, e, r :: rs => decide (r.begin = b) && decide (r.begin ≤ r.end) && isContiguous r.end e rs

/-- The chunks of `sched`, in whatever order they are run, are a partition of
`[0, n)` into contiguous chunks. -/
def IsPartition (n : Nat) (sched : List blocked_range) : Prop :=
  ∃ cs : List blocked_range, isContiguous 0 n cs = true ∧ sched.Perm cs

/-! ## fill -/

/-- The statement `arr[i] = func(i);` -/
def fill_step {T : Type} (func : Nat → T) (i : Nat) (arr : List T) : Option (List T) :=
  if i < arr.length then some (arr.set i (func i)) else none

/-- The lambda of `fill`: the loop over one chunk. -/
def fill_body {T : Type} (func : Nat → T) (r : blocked_range) (arr : List T) : Option (List T) :=
  forChunk r (fill_step func) arr

/-- The function `fill(arr, func)`: the result is the pair of the returned vector (a copy
of `arr` made by `return arr;`) and the final contents of `arr`. -/
def fill {T : Type} (sched : List blocked_range) (arr : List T) (func : Nat → T) :
    Option (List T × List T) :=
  (parallel_for sched (fill_body func) arr).map (fun arr1 => (arr1, arr1))

/-! ## saxpy -/

/-- The statement `x[i] = a * x[i] + y[i];` on the state made of the two
vectors (two distinct objects: `y` is not an alias of `x`). -/
def saxpy_step {T : Type} [Mul T] [Add T] (a : T) (i : Nat) (st : List T × List T) :
    Option (List T × List T) :=
  match st.1[i]?, st.2[i]? with
  | some xi, some yi => some (st.1.set i (a * xi + yi), st.2)
  | _, _ => none

/-- The lambda of `saxpy`: the loop over one chunk. -/
def saxpy_body {T : Type} [Mul T] [Add T] (a : T) (r : blocked_range) (st : List T × List T) :
    Option (List T × List T) :=
  forChunk r (saxpy_step a) st

/-- The function `saxpy(a, x, y)`: the result is the final contents of `x` and of `y`. -/
def saxpy {T : Type} [Mul T] [Add T] (sched : List blocked_range) (a : T) (x y : List T) :
    Option (List T × List T) :=
  parallel_for sched (saxpy_body a) (x, y)

/-- The value `a * x[i] + y[i]` when both reads are inside the vectors. -/
def saxpy_at {T : Type} [Mul T] [Add T] (a : T) (xi yi : Option T) : Option T :=
  xi.bind fun u => yi.map fun v => a * u + v

/-! ## parallel_reduce -/

/-- One execution of the functional form of `tbb::parallel_reduce`.  A body
object starts with the identity as its value (`fresh`), replaces its value by
`real_body(r, value)` when it is run on a chunk (`run`), and replaces it by
`reduction(value, other)` when another body is joined into it (`join`). -/
inductive ReduceSched where
  | fresh : ReduceSched
  | run : ReduceSched → blocked_range → ReduceSched
  | join : ReduceSched → ReduceSched → ReduceSched
  deriving Repr

/-- The chunks an execution runs the body on. -/
def ReduceSched.chunks : ReduceSched → List blocked_range
  | .fresh => []
  | .run s r => s.chunks ++ [r]
  | .join l r => l.chunks ++ r.chunks

/-- The function `tbb::parallel_reduce(range, identity, real_body, reduction)`
along one execution. -/
def parallel_reduce {V : Type} (identity : V) (real_body : blocked_range → V → Option V)
    (reduction : V → V → V) : ReduceSched → Option V
  | .fresh => some identity
  | .run s r => (parallel_reduce identity real_body reduction s).bind (real_body r)
  | .join l r =>
    (parallel_reduce identity real_body reduction l).bind fun a =>
      (parallel_reduce identity real_body reduction r).map fun b => reduction a b

/-! ## sqrtdot and minvalue

Both hand the literal `0` to `tbb::parallel_reduce` as the identity, so the value type of
the reduction is `int` whatever the element type `T` is, while the two lambdas take and
return a `T`.  Every accumulator value is converted from `int` to `T` when it is passed to
a lambda (the cast of an integer into `T`), and every value a lambda returns is converted
from `T` to `int` before it is stored.  The second conversion depends on `T` (the identity
for `int`, truncation toward zero for `float` and `double`); it is the parameter `narrow`.
Integers are unbounded. -/

/-- Conversion of a rational to `int` as C++ does it for a floating-point value: truncation
toward zero. -/
def trunc_to_int (q : ℚ) : Int :=
  if 0 ≤ q then ⌊q⌋ else ⌈q⌉

/-- The statement `local_res += x[i] * y[i];` -/
def sqrtdot_step {T : Type} [Ring T] (x y : List T) (i : Nat) (local_res : T) : Option T :=
  match x[i]?, y[i]? with
  | some xi, some yi => some (local_res + xi * yi)
  | _, _ => none

/-- The first lambda of `sqrtdot`. -/
def sqrtdot_body {T : Type} [Ring T] (x y : List T) (r : blocked_range) (local_res : T) :
    Option T :=
  forChunk r (sqrtdot_step x y) local_res

/-- The first lambda of `sqrtdot` as `parallel_reduce` calls it: the `int` accumulator is
converted to `T`, the `T` result is converted to `int`. -/
def sqrtdot_real_body {T : Type} [Ring T] (narrow : T → Int) (x y : List T)
    (r : blocked_range) (v : Int) : Option Int :=
  (sqrtdot_body x y r (v : T)).map narrow

/-- The second lambda of `sqrtdot`, `x + y` on `T`, as `parallel_reduce` calls it. -/
def sqrtdot_reduction {T : Type} [Ring T] (narrow : T → Int) (a b : Int) : Int :=
  narrow ((a : T) + (b : T))

/-- The value of `ret` in `sqrtdot` after `T ret = tbb::parallel_reduce(...)`, before
`std::sqrt`. -/
def sqrtdot_sum {T : Type} [Ring T] (narrow : T → Int) (sched : ReduceSched)
    (x y : List T) : Option T :=
  (parallel_reduce 0 (sqrtdot_real_body narrow x y) (sqrtdot_reduction narrow) sched).map
    (Int.cast : Int → T)

/-- The function `sqrtdot(x, y)`; `std::sqrt` on the element type is a parameter. -/
def sqrtdot {T : Type} [Ring T] (sqrt : T → T) (narrow : T → Int) (sched : ReduceSched)
    (x y : List T) : Option T :=
  (sqrtdot_sum narrow sched x y).map sqrt

/-- The statement `if (x[i] < local_res) local_res = x[i];` -/
def minvalue_step {T : Type} [LinearOrderedRing T] (x : List T) (i : Nat) (local_res : T) :
    Option T :=
  match x[i]? with
  | some xi => some (if xi < local_res then xi else local_res)
  | none => none

/-- The first lambda of `minvalue`. -/
def minvalue_body {T : Type} [LinearOrderedRing T] (x : List T) (r : blocked_range)
    (local_res : T) : Option T :=
  forChunk r (minvalue_step x) local_res

/-- The first lambda of `minvalue` as `parallel_reduce` calls it: the `int` accumulator is
converted to `T`, the `T` result is converted to `int`. -/
def minvalue_real_body {T : Type} [LinearOrderedRing T] (narrow : T → Int) (x : List T)
    (r : blocked_range) (v : Int) : Option Int :=
  (minvalue_body x r (v : T)).map narrow

/-- The second lambda of `minvalue`, `x < y ? x : y` on `T`, as `parallel_reduce` calls
it. -/
def minvalue_reduction {T : Type} [LinearOrderedRing T] (narrow : T → Int) (a b : Int) : Int :=
  narrow (if (a : T) < (b : T) then (a : T) else (b : T))

/-- The function `minvalue(x)`: `T ret = tbb::parallel_reduce(...); return ret;` -/
def minvalue {T : Type} [LinearOrderedRing T] (narrow : T → Int) (sched : ReduceSched)
    (x : List T) : Option T :=
  (parallel_reduce 0 (minvalue_real_body narrow x) (minvalue_reduction narrow) sched).map
    (Int.cast : Int → T)

/-! ## magicfilter -/

/-- Conversion of a `size_t` to `int` (32 bits, two's complement). -/
def int_of_size_t (v : Nat) : Int :=
  ((v + 2 ^ 31) % 2 ^ 32 : Nat) - 2 ^ 31

/-- Conversion of an `int` to `size_t` (64 bits). -/
def size_t_of_int (v : Int) : Nat :=
  (v % 2 ^ 64).toNat

/-- The variable `int n = std::min(x.size(), y.size());` -/
def magicfilter_n {T : Type} (x y : List T) : Int :=
  int_of_size_t (min x.length y.length)

/-- The end of the range `tbb::blocked_range<size_t>(0, n)` of `magicfilter`. -/
def magicfilter_range {T : Type} (x y : List T) : Nat :=
  size_t_of_int (magicfilter_n x y)

/-- One iteration of the loop of `magicfilter`: the `if` / `else if` with its
`push_back` calls on `local_a`. -/
def magicfilter_step {T : Type} [LinearOrderedField T] (x y : List T) (i : Nat)
    (local_a : List T) : Option (List T) :=
  match x[i]?, y[i]? with
  | some xi, some yi =>
    if xi > yi then some (local_a ++ [xi])
    else if yi > xi ∧ yi > 1 / 2 then some ((local_a ++ [yi]) ++ [xi * yi])
    else some local_a
  | _, _ => none

/-- The buffer `local_a` of one chunk when its loop is over. -/
def magicfilter_local {T : Type} [LinearOrderedField T] (x y : List T) (r : blocked_range) :
    Option (List T) :=
  forChunk r (magicfilter_step x y) []

/-- The lambda of `magicfilter`: fill `local_a`, then, holding the mutex, copy it
to the end of `res`. -/
def magicfilter_body {T : Type} [LinearOrderedField T] (x y : List T) (r : blocked_range)
    (res : List T) : Option (List T) :=
  (magicfilter_local x y r).map fun local_a => res ++ local_a

/-- The function `magicfilter(x, y)`.  The schedule lists the chunks of the range
`[0, magicfilter_range x y)` in the order in which they take the mutex.  The call
`res.reserve(n)` changes the capacity of `res`, not its contents. -/
def magicfilter {T : Type} [LinearOrderedField T] (sched : List blocked_range) (x y : List T) :
    Option (List T) :=
  parallel_for sched (magicfilter_body x y) []

/-! ## scanner -/

/-- The loop body of `scanner`: `local_res += x[i]; if (is_final) x[i] = local_res;`
on the state made of `local_res` and the vector. -/
def scanner_step {T : Type} [Add T] (is_final : Bool) (i : Nat) (st : T × List T) :
    Option (T × List T) :=
  match st.2[i]? with
  | some xi =>
    let local_res := st.1 + xi
    some (local_res, if is_final then st.2.set i local_res else st.2)
  | none => none

/-- The first lambda of `scanner`.  Its loop runs while `i != r.end()`: on a chunk
with `r.end() < r.begin()` it runs off the end of the vector. -/
def scanner_body {T : Type} [Add T] (r : blocked_range) (local_res : T) (is_final : Bool)
    (x : List T) : Option (T × List T) :=
  if r.end < r.begin then none
  else forChunk r (scanner_step is_final) (local_res, x)

/-- The first pass of `tbb::parallel_scan`: every chunk that is marked is run
with `is_final = false` from the identity, and its result is kept. -/
def pre_scan {V σ : Type} (identity : V) (scan : blocked_range → V → Bool → σ → Option (V × σ)) :
    List (blocked_range × Bool) → σ → Option (List (blocked_range × Option V) × σ)
  | [], s => some ([], s)
  | (r, true) :: rest, s =>
    (scan r identity false s).bind fun p =>
      (pre_scan identity scan rest p.2).map fun q => ((r, some p.1) :: q.1, q.2)
  | (r, false) :: rest, s =>
    (pre_scan identity scan rest s).map fun q => ((r, none) :: q.1, q.2)

/-- The second pass of `tbb::parallel_scan`: the chunks are run in index order with
`is_final = true`, each from the combination of what precedes it.  What a chunk
adds to that is its first-pass result when it has one, and else
the result of its final run. -/
def final_scan {V σ : Type} (scan : blocked_range → V → Bool → σ → Option (V × σ))
    (combine : V → V → V) : List (blocked_range × Option V) → V → σ → Option (V × σ)
  | [], sum, s => some (sum, s)
  | (r, some p) :: rest, sum, s =>
    (scan r sum true s).bind fun q => final_scan scan combine rest (combine sum p) q.2
  | (r, none) :: rest, sum, s =>
    (scan r sum true s).bind fun q => final_scan scan combine rest q.1 q.2

/-- The function `tbb::parallel_scan(range, identity, scan, combine)` along one execution:
the chunks in index order, each with the mark of the first pass. -/
def parallel_scan {V σ : Type} (identity : V)
    (scan : blocked_range → V → Bool → σ → Option (V × σ)) (combine : V → V → V)
    (sched : List (blocked_range × Bool)) (s : σ) : Option (V × σ) :=
  (pre_scan identity scan sched s).bind fun p => final_scan scan combine p.1 identity p.2

/-- The function `scanner(x)`: the returned value and the final contents of `x`.
The identity `T{}` is zero. -/
def scanner {T : Type} [Add T] [Zero T] (sched : List (blocked_range × Bool)) (x : List T) :
    Option (T × List T) :=
  parallel_scan 0 (fun r local_res is_final v => scanner_body r local_res is_final v)
    (fun a b => a + b) sched x

/-! ## Sequential references -/

/-- The elements of `l` at the indices of the chunk `r`. -/
def chunk_slice {α : Type} (l : List α) (r : blocked_range) : List α :=
  (l.drop r.begin).take (r.end - r.begin)

/-- The sequential sum of the products `x[i] * y[i]`. -/
def dot_ref {T : Type} [Ring T] (x y : List T) : T :=
  (List.zipWith (fun u v => u * v) x y).sum

/-- What one index contributes to the output of the sequential filter loop. -/
def select {T : Type} [LinearOrderedField T] (xi yi : T) : List T :=
  if xi > yi then [xi]
  else if yi > xi ∧ yi > 1 / 2 then [yi, xi * yi]
  else []

/-- The sequential single-loop filter: the contributions of the indices below the shorter
length, in ascending index order. -/
def magicfilter_ref {T : Type} [LinearOrderedField T] (x y : List T) : List T :=
  (x.zip y).flatMap fun p => select p.1 p.2

/-- The sequential inclusive prefix sum started from `acc`. -/
def inclusive_sums {T : Type} [Add T] : T → List T → List T
  | _, [] => []
  | acc, v :: vs => (acc + v) :: inclusive_sums (acc + v) vs

/-! ## Chunk partitions -/

theorem isContiguous_cons (b e : Nat) (r : blocked_range) (rs : List blocked_range) :
    isContiguous b e (r :: rs) = true ↔
      r.begin = b ∧ r.begin ≤ r.end ∧ isContiguous r.end e rs = true := by
  simp [isContiguous, and_assoc]

theorem isContiguous_le : ∀ (cs : List blocked_range) (b e : Nat),
    isContiguous b e cs = true → b ≤ e
  | [], b, e, h => by simp [isContiguous] at h; omega
  | r :: rs, b, e, h => by
    rw [isContiguous_cons] at h
    have := isContiguous_le rs r.end e h.2.2
    omega

theorem isContiguous_bounds : ∀ (cs : List blocked_range) (b e : Nat),
    isContiguous b e cs = true → ∀ r ∈ cs, b ≤ r.begin ∧ r.begin ≤ r.end ∧ r.end ≤ e
  | [], _, _, _ => by simp
  | c :: cs, b, e, h => by
    rw [isContiguous_cons] at h
    intro r hr
    rcases List.mem_cons.1 hr with rfl | hr
    · have := isContiguous_le cs _ e h.2.2
      omega
    · have := isContiguous_bounds cs _ e h.2.2 r hr
      omega

theorem isContiguous_cover : ∀ (cs : List blocked_range) (b e : Nat),
    isContiguous b e cs = true → ∀ i, b ≤ i → i < e → ∃ r ∈ cs, r.Mem i
  | [], b, e, h => by simp [isContiguous] at h; omega
  | c :: cs, b, e, h => by
    rw [isContiguous_cons] at h
    intro i hb he
    by_cases hi : i < c.end
    · exact ⟨c, List.mem_cons_self _ _, by unfold blocked_range.Mem; omega⟩
    · obtain ⟨r, hr, hm⟩ := isContiguous_cover cs _ e h.2.2 i (by omega) he
      exact ⟨r, List.mem_cons_of_mem _ hr, hm⟩

theorem isContiguous_pairwise : ∀ (cs : List blocked_range) (b e : Nat),
    isContiguous b e cs = true → cs.Pairwise blocked_range.Disj
  | [], _, _, _ => List.Pairwise.nil
  | c :: cs, b, e, h => by
    rw [isContiguous_cons] at h
    refine List.Pairwise.cons (fun r hr => ?_) (isContiguous_pairwise cs _ e h.2.2)
    have := isContiguous_bounds cs _ e h.2.2 r hr
    exact Or.inl this.1

theorem IsPartition.bounds {n : Nat} {sched : List blocked_range} (h : IsPartition n sched) :
    ∀ r ∈ sched, r.begin ≤ r.end ∧ r.end ≤ n := by
  obtain ⟨cs, hc, hp⟩ := h
  intro r hr
  have := isContiguous_bounds cs 0 n hc r (hp.mem_iff.1 hr)
  omega

theorem IsPartition.cover {n : Nat} {sched : List blocked_range} (h : IsPartition n sched) :
    ∀ i, i < n → ∃ r ∈ sched, r.Mem i := by
  obtain ⟨cs, hc, hp⟩ := h
  intro i hi
  obtain ⟨r, hr, hm⟩ := isContiguous_cover cs 0 n hc i (Nat.zero_le _) hi
  exact ⟨r, hp.mem_iff.2 hr, hm⟩

theorem IsPartition.pairwise {n : Nat} {sched : List blocked_range} (h : IsPartition n sched) :
    sched.Pairwise blocked_range.Disj := by
  obtain ⟨cs, hc, hp⟩ := h
  have hsymm : ∀ r s : blocked_range, r.Disj s → s.Disj r := fun r s h => Or.symm h
  exact (hp.pairwise_iff (fun {r s} h => hsymm r s h)).2 (isContiguous_pairwise cs 0 n hc)

/-! ## fill -/

theorem fill_loop {T : Type} (func : Nat → T) : ∀ (k b : Nat) (arr : List T),
    b + k ≤ arr.length →
    ∃ arr1, forRange (fill_step func) b k arr = some arr1 ∧ arr1.length = arr.length ∧
      ∀ j, arr1[j]? = if b ≤ j ∧ j < b + k then some (func j) else arr[j]?
  | 0, b, arr, _ => ⟨arr, rfl, rfl, fun j => by
      have : ¬ (b ≤ j ∧ j < b + 0) := by omega
      rw [if_neg this]⟩
  | k + 1, b, arr, h => by
    have hb : b < arr.length := by omega
    obtain ⟨arr1, h1, h2, h3⟩ :=
      fill_loop func k (b + 1) (arr.set b (func b)) (by simp; omega)
    refine ⟨arr1, ?_, by simpa using h2, fun j => ?_⟩
    · simp [forRange, fill_step, hb, h1]
    · rw [h3 j, List.getElem?_set]
      by_cases hj : b = j
      · subst hj
        simp [hb]
      · by_cases hj2 : b + 1 ≤ j ∧ j < b + 1 + k
        · have : b ≤ j ∧ j < b + (k + 1) := by omega
          simp [hj2, this]
        · have : ¬ (b ≤ j ∧ j < b + (k + 1)) := by omega
          simp [hj2, this, hj]

theorem fill_body_spec {T : Type} (func : Nat → T) (r : blocked_range) (arr : List T)
    (hr : r.begin ≤ r.end ∧ r.end ≤ arr.length) :
    ∃ arr1, fill_body func r arr = some arr1 ∧ arr1.length = arr.length ∧
      ∀ j, arr1[j]? = if r.Mem j then some (func j) else arr[j]? := by
  obtain ⟨arr1, h1, h2, h3⟩ := fill_loop func (r.end - r.begin) r.begin arr (by omega)
  refine ⟨arr1, h1, h2, fun j => ?_⟩
  rw [h3 j]
  have : r.begin + (r.end - r.begin) = r.end := by omega
  simp only [this, blocked_range.Mem]

theorem fill_parallel_for {T : Type} (func : Nat → T) : ∀ (sched : List blocked_range)
    (arr : List T), (∀ r ∈ sched, r.begin ≤ r.end ∧ r.end ≤ arr.length) →
    ∃ arr1, parallel_for sched (fill_body func) arr = some arr1 ∧ arr1.length = arr.length ∧
      ∀ j, arr1[j]? = if ∃ r ∈ sched, r.Mem j then some (func j) else arr[j]?
  | [], arr, _ => ⟨arr, rfl, rfl, fun j => by simp⟩
  | c :: cs, arr, h => by
    obtain ⟨arr1, h1, h2, h3⟩ := fill_body_spec func c arr (h c (List.mem_cons_self _ _))
    obtain ⟨arr2, g1, g2, g3⟩ := fill_parallel_for func cs arr1 (fun r hr => by
      rw [h2]; exact h r (List.mem_cons_of_mem _ hr))
    refine ⟨arr2, ?_, by rw [g2, h2], fun j => ?_⟩
    · simp only [parallel_for, List.foldlM_cons, h1] at g1 ⊢
      simpa using g1
    · rw [g3 j, h3 j]
      by_cases hc : c.Mem j <;> by_cases hcs : ∃ r ∈ cs, r.Mem j <;> simp [hc, hcs]

/-- Claim C5: for every vector, every function and every partition of the index range
into chunks run in any order, `fill` returns, leaves the length of `arr` unchanged,
stores `func i` at every index `i`, and the vector it returns is the final `arr`. -/
theorem fill_correct {T : Type} (sched : List blocked_range) (arr : List T) (func : Nat → T)
    (h : IsPartition arr.length sched) :
    ∃ arr1, fill sched arr func = some (arr1, arr1) ∧ arr1.length = arr.length ∧
      ∀ i, i < arr.length → arr1[i]? = some (func i) := by
  obtain ⟨arr1, h1, h2, h3⟩ := fill_parallel_for func sched arr h.bounds
  refine ⟨arr1, by simp [fill, h1], h2, fun i hi => ?_⟩
  rw [h3 i, if_pos (h.cover i hi)]

theorem fill_correct_witness :
    IsPartition [7, 7, 7, 7].length [⟨2, 4⟩, ⟨0, 2⟩] ∧
    ∃ arr1, fill [⟨2, 4⟩, ⟨0, 2⟩] [7, 7, 7, 7] (fun i => 10 * i) = some (arr1, arr1) ∧
      arr1.length = [7, 7, 7, 7].length ∧
      ∀ i, i < [7, 7, 7, 7].length → arr1[i]? = some ((fun i => 10 * i) i) :=
  ⟨⟨[⟨0, 2⟩, ⟨2, 4⟩], by decide, by decide⟩,
   fill_correct [⟨2, 4⟩, ⟨0, 2⟩] [7, 7, 7, 7] (fun i => 10 * i)
     ⟨[⟨0, 2⟩, ⟨2, 4⟩], by decide, by decide⟩⟩

/-! ## saxpy -/

theorem blocked_range.Disj.not_mem {r s : blocked_range} (h : r.Disj s) (j : Nat)
    (hr : r.Mem j) : ¬ s.Mem j := by
  unfold blocked_range.Disj at h
  unfold blocked_range.Mem at hr ⊢
  omega

theorem saxpy_loop {T : Type} [Mul T] [Add T] (a : T) (y : List T) : ∀ (k b : Nat) (x : List T),
    b + k ≤ x.length → x.length ≤ y.length →
    ∃ x1, forRange (saxpy_step a) b k (x, y) = some (x1, y) ∧ x1.length = x.length ∧
      ∀ j, x1[j]? = if b ≤ j ∧ j < b + k then saxpy_at a x[j]? y[j]? else x[j]?
  | 0, b, x, _, _ => ⟨x, rfl, rfl, fun j => by
      have : ¬ (b ≤ j ∧ j < b + 0) := by omega
      rw [if_neg this]⟩
  | k + 1, b, x, h, hy => by
    have hb : b < x.length := by omega
    have hby : b < y.length := by omega
    obtain ⟨x1, h1, h2, h3⟩ :=
      saxpy_loop a y k (b + 1) (x.set b (a * x[b] + y[b])) (by simp; omega) (by simpa using hy)
    refine ⟨x1, ?_, by simpa using h2, fun j => ?_⟩
    · simp [forRange, saxpy_step, List.getElem?_eq_getElem hb, List.getElem?_eq_getElem hby, h1]
    · rw [h3 j, List.getElem?_set]
      by_cases hj : b = j
      · subst hj
        simp [hb, saxpy_at, List.getElem?_eq_getElem hb, List.getElem?_eq_getElem hby]
      · by_cases hj2 : b + 1 ≤ j ∧ j < b + 1 + k
        · have : b ≤ j ∧ j < b + (k + 1) := by omega
          simp [hj2, this, hj]
        · have : ¬ (b ≤ j ∧ j < b + (k + 1)) := by omega
          simp [hj2, this, hj]

theorem saxpy_body_spec {T : Type} [Mul T] [Add T] (a : T) (r : blocked_range) (x y : List T)
    (hr : r.begin ≤ r.end ∧ r.end ≤ x.length) (hy : x.length ≤ y.length) :
    ∃ x1, saxpy_body a r (x, y) = some (x1, y) ∧ x1.length = x.length ∧
      ∀ j, x1[j]? = if r.Mem j then saxpy_at a x[j]? y[j]? else x[j]? := by
  obtain ⟨x1, h1, h2, h3⟩ := saxpy_loop a y (r.end - r.begin) r.begin x (by omega) hy
  refine ⟨x1, h1, h2, fun j => ?_⟩
  rw [h3 j]
  have : r.begin + (r.end - r.begin) = r.end := by omega
  simp only [this, blocked_range.Mem]

theorem saxpy_parallel_for {T : Type} [Mul T] [Add T] (a : T) (y : List T) :
    ∀ (sched : List blocked_range) (x : List T),
    (∀ r ∈ sched, r.begin ≤ r.end ∧ r.end ≤ x.length) → sched.Pairwise blocked_range.Disj →
    x.length ≤ y.length →
    ∃ x1, parallel_for sched (saxpy_body a) (x, y) = some (x1, y) ∧ x1.length = x.length ∧
      ∀ j, x1[j]? = if ∃ r ∈ sched, r.Mem j then saxpy_at a x[j]? y[j]? else x[j]?
  | [], x, _, _, _ => ⟨x, rfl, rfl, fun j => by simp⟩
  | c :: cs, x, h, hp, hy => by
    obtain ⟨x1, h1, h2, h3⟩ := saxpy_body_spec a c x y (h c (List.mem_cons_self _ _)) hy
    rw [List.pairwise_cons] at hp
    obtain ⟨x2, g1, g2, g3⟩ := saxpy_parallel_for a y cs x1 (fun r hr => by
      rw [h2]; exact h r (List.mem_cons_of_mem _ hr)) hp.2 (by rw [h2]; exact hy)
    refine ⟨x2, ?_, by rw [g2, h2], fun j => ?_⟩
    · simp only [parallel_for, List.foldlM_cons, h1] at g1 ⊢
      simpa using g1
    · rw [g3 j, h3 j]
      by_cases hc : c.Mem j
      · have hcs : ¬ ∃ r ∈ cs, r.Mem j := fun ⟨r, hr, hm⟩ => (hp.1 r hr).not_mem j hc hm
        simp [hc, hcs]
      · by_cases hcs : ∃ r ∈ cs, r.Mem j <;> simp [hc, hcs]

/-- Claim C6: for every scalar `a`, every two vectors of equal length and every partition
of the index range into chunks run in any order, `saxpy` returns, leaves `y` and the length
of `x` unchanged, and every element of `x` becomes `a * x_old[i] + y[i]`. -/
theorem saxpy_correct {T : Type} [Mul T] [Add T] (sched : List blocked_range) (a : T)
    (x y : List T) (hxy : x.length = y.length) (h : IsPartition x.length sched) :
    ∃ x1, saxpy sched a x y = some (x1, y) ∧ x1.length = x.length ∧
      ∀ (i : Nat) (xi yi : T), x[i]? = some xi → y[i]? = some yi →
        x1[i]? = some (a * xi + yi) := by
  obtain ⟨x1, h1, h2, h3⟩ := saxpy_parallel_for a y sched x h.bounds h.pairwise (le_of_eq hxy)
  refine ⟨x1, h1, h2, fun i xi yi hx hy => ?_⟩
  have hi : i < x.length := (List.getElem?_eq_some_iff.1 hx).1
  rw [h3 i, if_pos (h.cover i hi), hx, hy]
  rfl

theorem saxpy_correct_witness :
    ([1, 2, 3, 4] : List Int).length = ([1, 1, 1, 1] : List Int).length ∧
    IsPartition ([1, 2, 3, 4] : List Int).length [⟨2, 4⟩, ⟨0, 2⟩] ∧
    saxpy [⟨2, 4⟩, ⟨0, 2⟩] (2 : Int) [1, 2, 3, 4] [1, 1, 1, 1] = some ([3, 5, 7, 9], [1, 1, 1, 1]) ∧
    ∃ x1, saxpy [⟨2, 4⟩, ⟨0, 2⟩] (2 : Int) [1, 2, 3, 4] [1, 1, 1, 1] = some (x1, [1, 1, 1, 1]) ∧
      x1.length = ([1, 2, 3, 4] : List Int).length ∧
      ∀ (i : Nat) (xi yi : Int), ([1, 2, 3, 4] : List Int)[i]? = some xi →
        ([1, 1, 1, 1] : List Int)[i]? = some yi →
        x1[i]? = some (2 * xi + yi) :=
  ⟨by decide, ⟨[⟨0, 2⟩, ⟨2, 4⟩], by decide, by decide⟩, by decide,
   saxpy_correct [⟨2, 4⟩, ⟨0, 2⟩] (2 : Int) [1, 2, 3, 4] [1, 1, 1, 1] (by decide)
     ⟨[⟨0, 2⟩, ⟨2, 4⟩], by decide, by decide⟩⟩

/-! ## Loops that only read -/

theorem forRange_read {α σ : Type} (l : List α) (g : σ → α → σ) (body : Nat → σ → Option σ)
    (hbody : ∀ i s, body i s = (l[i]?).map (g s)) : ∀ (k b : Nat) (s : σ),
    b + k ≤ l.length → forRange body b k s = some (((l.drop b).take k).foldl g s)
  | 0, _, _, _ => by simp [forRange]
  | k + 1, b, s, h => by
    have hb : b < l.length := by omega
    rw [forRange, hbody, List.getElem?_eq_getElem hb, Option.map_some', Option.some_bind,
      forRange_read l g body hbody k (b + 1) (g s l[b]) (by omega),
      List.drop_eq_getElem_cons hb, List.take_succ_cons, List.foldl_cons]

theorem forChunk_read {α σ : Type} (l : List α) (g : σ → α → σ) (body : Nat → σ → Option σ)
    (hbody : ∀ i s, body i s = (l[i]?).map (g s)) (r : blocked_range) (s : σ)
    (hr : r.begin ≤ r.end ∧ r.end ≤ l.length) :
    forChunk r body s = some ((chunk_slice l r).foldl g s) :=
  forRange_read l g body hbody (r.end - r.begin) r.begin s (by omega)

theorem slice_split {α : Type} (l : List α) (b m e : Nat) (hbm : b ≤ m) (hme : m ≤ e) :
    (l.drop b).take (e - b) = (l.drop b).take (m - b) ++ (l.drop m).take (e - m) := by
  have h1 : e - b = (m - b) + (e - m) := by omega
  have h2 : b + (m - b) = m := by omega
  rw [h1, List.take_add, List.drop_drop, h2]

theorem isContiguous_flatMap {α : Type} (l : List α) : ∀ (cs : List blocked_range) (b e : Nat),
    isContiguous b e cs = true → cs.flatMap (chunk_slice l) = (l.drop b).take (e - b)
  | [], b, e, h => by
    simp [isContiguous] at h
    simp [h]
  | c :: cs, b, e, h => by
    rw [isContiguous_cons] at h
    have hle := isContiguous_le cs _ e h.2.2
    rw [List.flatMap_cons, isContiguous_flatMap l cs _ e h.2.2,
      slice_split l b c.end e (by omega) hle, chunk_slice, h.1]

theorem isContiguous_flatMap_all {α : Type} (l : List α) (cs : List blocked_range)
    (h : isContiguous 0 l.length cs = true) : cs.flatMap (chunk_slice l) = l := by
  rw [isContiguous_flatMap l cs 0 l.length h]
  simp

theorem foldl_add_eq {T : Type} [AddMonoid T] : ∀ (l : List T) (s : T),
    l.foldl (fun a b => a + b) s = s + l.sum
  | [], s => by simp
  | v :: vs, s => by
    rw [List.foldl_cons, foldl_add_eq vs, List.sum_cons, add_assoc]

/-! ## magicfilter -/

theorem magicfilter_step_eq {T : Type} [LinearOrderedField T] (x y : List T) (i : Nat)
    (acc : List T) :
    magicfilter_step x y i acc = ((x.zip y)[i]?).map (fun p => acc ++ select p.1 p.2) := by
  rw [List.zip_eq_zipWith, List.getElem?_zipWith, magicfilter_step]
  cases x[i]? <;> cases y[i]? <;> try rfl
  simp only [select, Option.map_some', Option.bind_some]
  split_ifs <;> simp

theorem foldl_append_eq {α β : Type} (f : α → List β) : ∀ (l : List α) (acc : List β),
    l.foldl (fun a p => a ++ f p) acc = acc ++ l.flatMap f
  | [], acc => by simp
  | v :: vs, acc => by
    rw [List.foldl_cons, foldl_append_eq f vs, List.flatMap_cons, List.append_assoc]

theorem magicfilter_local_spec {T : Type} [LinearOrderedField T] (x y : List T)
    (r : blocked_range) (hr : r.begin ≤ r.end ∧ r.end ≤ (x.zip y).length) :
    magicfilter_local x y r =
      some ((chunk_slice (x.zip y) r).flatMap fun p => select p.1 p.2) := by
  rw [magicfilter_local,
    forChunk_read (x.zip y) (fun a p => a ++ select p.1 p.2) _ (magicfilter_step_eq x y) r [] hr,
    foldl_append_eq]
  rfl

theorem magicfilter_parallel_for {T : Type} [LinearOrderedField T] (x y : List T) :
    ∀ (sched : List blocked_range) (res : List T),
    (∀ r ∈ sched, r.begin ≤ r.end ∧ r.end ≤ (x.zip y).length) →
    parallel_for sched (magicfilter_body x y) res =
      some (res ++ sched.flatMap fun r =>
        (chunk_slice (x.zip y) r).flatMap fun p => select p.1 p.2)
  | [], res, _ => by simp [parallel_for]
  | c :: cs, res, h => by
    have ih := magicfilter_parallel_for x y cs
      (res ++ (chunk_slice (x.zip y) c).flatMap fun p => select p.1 p.2)
      (fun r hr => h r (List.mem_cons_of_mem _ hr))
    simp only [parallel_for] at ih ⊢
    rw [List.foldlM_cons, magicfilter_body,
      magicfilter_local_spec x y c (h c (List.mem_cons_self _ _)), Option.map_some',
      Option.bind_eq_bind, Option.some_bind, ih, List.flatMap_cons, List.append_assoc]

theorem magicfilter_perm {T : Type} [LinearOrderedField T] (sched : List blocked_range)
    (x y : List T) (hs : IsPartition (min x.length y.length) sched) :
    ∃ res, magicfilter sched x y = some res ∧ res.Perm (magicfilter_ref x y) := by
  have hlen : (x.zip y).length = min x.length y.length := List.length_zip x y
  refine ⟨_, by
    rw [magicfilter, magicfilter_parallel_for x y sched [] (by rw [hlen]; exact hs.bounds)], ?_⟩
  obtain ⟨cs, hc, hp⟩ := hs
  rw [List.nil_append]
  refine (hp.flatMap_right _).trans ?_
  rw [← List.flatMap_assoc, isContiguous_flatMap_all _ cs (by rw [hlen]; exact hc)]
  exact List.Perm.refl _

theorem select_length_le {T : Type} [LinearOrderedField T] (u v : T) :
    (select u v).length ≤ 2 := by
  unfold select
  split_ifs <;> simp

theorem flatMap_length_le {α β : Type} (f : α → List β) (c : Nat)
    (hf : ∀ a, (f a).length ≤ c) : ∀ l : List α, (l.flatMap f).length ≤ c * l.length
  | [] => by simp
  | a :: l => by
    have := flatMap_length_le f c hf l
    have := hf a
    rw [List.flatMap_cons, List.length_append, List.length_cons, Nat.mul_succ]
    omega

theorem int_of_size_t_small (v : Nat) (h : v < 2 ^ 31) : int_of_size_t v = v := by
  unfold int_of_size_t
  have : (v + 2 ^ 31) % 2 ^ 32 = v + 2 ^ 31 := Nat.mod_eq_of_lt (by omega)
  rw [this]
  push_cast
  ring

theorem magicfilter_range_small {T : Type} (x y : List T)
    (h : min x.length y.length < 2 ^ 31) : magicfilter_range x y = min x.length y.length := by
  unfold magicfilter_range magicfilter_n size_t_of_int
  rw [int_of_size_t_small _ h]
  have h0 : (0 : Int) ≤ ((min x.length y.length : Nat) : Int) := Int.ofNat_nonneg _
  have h1 : ((min x.length y.length : Nat) : Int) < 2 ^ 64 := by
    have : (min x.length y.length : Nat) < 2 ^ 64 := by omega
    exact_mod_cast this
  rw [Int.emod_eq_of_lt h0 h1]
  exact Int.toNat_natCast _

theorem chunk_slice_take {α : Type} (l : List α) (n : Nat) (r : blocked_range)
    (hr : r.end ≤ n) : chunk_slice (l.take n) r = chunk_slice l r := by
  unfold chunk_slice
  rw [List.drop_take, List.take_take]
  congr 1
  omega

theorem magicfilter_agree {T : Type} [LinearOrderedField T] (n : Nat) (x y x2 y2 : List T)
    (hx : x2.take n = x.take n) (hy : y2.take n = y.take n) (hn : n ≤ (x.zip y).length) :
    ∀ (sched : List blocked_range), (∀ r ∈ sched, r.begin ≤ r.end ∧ r.end ≤ n) →
    magicfilter sched x2 y2 = magicfilter sched x y := by
  intro sched hs
  have hz : (x2.zip y2).take n = (x.zip y).take n := by
    rw [List.zip_eq_zipWith, List.zip_eq_zipWith, List.take_zipWith, List.take_zipWith, hx, hy]
  have hn2 : n ≤ (x2.zip y2).length := by
    have h1 : ((x2.zip y2).take n).length = n := by
      rw [hz, List.length_take]; omega
    rw [List.length_take] at h1
    omega
  have hsl : ∀ r ∈ sched, chunk_slice (x2.zip y2) r = chunk_slice (x.zip y) r := by
    intro r hr
    rw [← chunk_slice_take (x2.zip y2) n r (hs r hr).2, hz,
      chunk_slice_take (x.zip y) n r (hs r hr).2]
  rw [magicfilter, magicfilter,
    magicfilter_parallel_for x2 y2 sched [] (fun r hr => ⟨(hs r hr).1, by have := (hs r hr).2; omega⟩),
    magicfilter_parallel_for x y sched [] (fun r hr => ⟨(hs r hr).1, by have := (hs r hr).2; omega⟩)]
  congr 2
  exact List.flatMap_congr (fun r hr => by rw [hsl r hr])

/-- Claim C4: for every two vectors and every partition of the indices below the shorter
length into chunks that take the mutex in any order, `magicfilter` returns a vector whose
multiset of values is that of the sequential single-loop filter; two executions on the same
input return permutations of each other. -/
theorem magicfilter_multiset {T : Type} [LinearOrderedField T] (sched sched2 : List blocked_range)
    (x y : List T) (hs : IsPartition (min x.length y.length) sched)
    (hs2 : IsPartition (min x.length y.length) sched2) :
    ∃ res res2, magicfilter sched x y = some res ∧ magicfilter sched2 x y = some res2 ∧
      (res : Multiset T) = (magicfilter_ref x y : Multiset T) ∧ res.Perm res2 := by
  obtain ⟨res, h1, p1⟩ := magicfilter_perm sched x y hs
  obtain ⟨res2, h2, p2⟩ := magicfilter_perm sched2 x y hs2
  exact ⟨res, res2, h1, h2, Multiset.coe_eq_coe.2 p1, p1.trans p2.symm⟩

theorem magicfilter_multiset_witness :
    IsPartition (min ([1, 3, 2] : List ℚ).length ([2, 1, 5] : List ℚ).length) [⟨1, 3⟩, ⟨0, 1⟩] ∧
    IsPartition (min ([1, 3, 2] : List ℚ).length ([2, 1, 5] : List ℚ).length) [⟨0, 3⟩] ∧
    magicfilter [⟨1, 3⟩, ⟨0, 1⟩] [(1 : ℚ), 3, 2] [2, 1, 5] = some [3, 5, 10, 2, 2] ∧
    ∃ res res2, magicfilter [⟨1, 3⟩, ⟨0, 1⟩] [(1 : ℚ), 3, 2] [2, 1, 5] = some res ∧
      magicfilter [⟨0, 3⟩] [(1 : ℚ), 3, 2] [2, 1, 5] = some res2 ∧
      (res : Multiset ℚ) = (magicfilter_ref [(1 : ℚ), 3, 2] [2, 1, 5] : Multiset ℚ) ∧
      res.Perm res2 :=
  ⟨⟨[⟨0, 1⟩, ⟨1, 3⟩], by decide, by decide⟩, ⟨[⟨0, 3⟩], by decide, by decide⟩,
   by norm_num [magicfilter, parallel_for, magicfilter_body, magicfilter_local, forChunk,
     forRange, magicfilter_step],
   magicfilter_multiset [⟨1, 3⟩, ⟨0, 1⟩] [⟨0, 3⟩] [(1 : ℚ), 3, 2] [2, 1, 5]
     ⟨[⟨0, 1⟩, ⟨1, 3⟩], by decide, by decide⟩ ⟨[⟨0, 3⟩], by decide, by decide⟩⟩

/-- Claim C8, counterexample: on `x = [1, 3, 2]`, `y = [2, 1, 5]` the filter run as one chunk
returns five values, `[2, 2, 3, 5, 10]`, not the three values `3, 2, 5`. -/
theorem magicfilter_example_not_three :
    magicfilter [⟨0, 3⟩] [(1 : ℚ), 3, 2] [2, 1, 5] = some [2, 2, 3, 5, 10] ∧
      (([2, 2, 3, 5, 10] : List ℚ) : Multiset ℚ) ≠ {3, 2, 5} := by
  refine ⟨by norm_num [magicfilter, parallel_for, magicfilter_body, magicfilter_local,
    forChunk, forRange, magicfilter_step], fun h => ?_⟩
  have := congrArg Multiset.card h
  simp at this

/-- Claim C8, amended: on `x = [1, 3, 2]`, `y = [2, 1, 5]`, for every partition of the three
indices into chunks taking the mutex in any order, `magicfilter` returns exactly the multiset
`{2, 2, 3, 5, 10}`: where `y[i]` is the larger value it is followed by `x[i] * y[i]`. -/
theorem magicfilter_example {T : Type} [LinearOrderedField T] (sched : List blocked_range)
    (hs : IsPartition 3 sched) :
    ∃ res, magicfilter sched [(1 : T), 3, 2] [2, 1, 5] = some res ∧
      (res : Multiset T) = {2, 2, 3, 5, 10} := by
  obtain ⟨res, h1, p1⟩ := magicfilter_perm sched [(1 : T), 3, 2] [2, 1, 5] hs
  refine ⟨res, h1, ?_⟩
  rw [Multiset.coe_eq_coe.2 p1]
  have : magicfilter_ref [(1 : T), 3, 2] [2, 1, 5] = [2, 2, 3, 5, 10] := by
    norm_num [magicfilter_ref, select]
  rw [this]
  rfl

theorem magicfilter_example_witness :
    IsPartition 3 [⟨1, 3⟩, ⟨0, 1⟩] ∧
    ∃ res, magicfilter [⟨1, 3⟩, ⟨0, 1⟩] [(1 : ℚ), 3, 2] [2, 1, 5] = some res ∧
      (res : Multiset ℚ) = {2, 2, 3, 5, 10} :=
  ⟨⟨[⟨0, 1⟩, ⟨1, 3⟩], by decide, by decide⟩,
   magicfilter_example [⟨1, 3⟩, ⟨0, 1⟩] ⟨[⟨0, 1⟩, ⟨1, 3⟩], by decide, by decide⟩⟩

/-- Claim C9, counterexample: on `x = [0]`, `y = [1]` the filter appends two values, more
than the shorter length `1` that was reserved. -/
theorem magicfilter_exceeds_reserve :
    ∃ res, magicfilter [⟨0, 1⟩] [(0 : ℚ)] [1] = some res ∧
      ¬ res.length ≤ min ([(0 : ℚ)].length) ([(1 : ℚ)].length) :=
  ⟨[1, 0], by norm_num [magicfilter, parallel_for, magicfilter_body, magicfilter_local,
    forChunk, forRange, magicfilter_step], by decide⟩

/-- Claim C9, amended: for every two vectors and every partition of the indices below the
shorter length into chunks, the number of values `magicfilter` appends to the output never
exceeds twice the shorter length. -/
theorem magicfilter_length_le {T : Type} [LinearOrderedField T] (sched : List blocked_range)
    (x y : List T) (hs : IsPartition (min x.length y.length) sched) :
    ∃ res, magicfilter sched x y = some res ∧ res.length ≤ 2 * min x.length y.length := by
  obtain ⟨res, h1, p1⟩ := magicfilter_perm sched x y hs
  refine ⟨res, h1, ?_⟩
  rw [p1.length_eq, magicfilter_ref, ← List.length_zip x y]
  exact flatMap_length_le (fun p : T × T => select p.1 p.2) 2
    (fun p => select_length_le p.1 p.2) _

theorem magicfilter_length_le_witness :
    IsPartition (min ([(0 : ℚ)].length) ([(1 : ℚ)].length)) [⟨0, 1⟩] ∧
    ∃ res, magicfilter [⟨0, 1⟩] [(0 : ℚ)] [1] = some res ∧
      res.length ≤ 2 * min ([(0 : ℚ)].length) ([(1 : ℚ)].length) :=
  ⟨⟨[⟨0, 1⟩], by decide, by decide⟩,
   magicfilter_length_le [⟨0, 1⟩] [(0 : ℚ)] [1] ⟨[⟨0, 1⟩], by decide, by decide⟩⟩

/-- Claim C10: for two vectors of possibly different lengths, each below `2 ^ 31`, the range
of `magicfilter` ends at the shorter length `n`, every execution returns (no read is outside
the vectors), the result is that of `magicfilter` on the first `n` elements of `x` and of
`y`, and it is the same for all inputs that agree with `x` and `y` below index `n`. -/
theorem magicfilter_truncates {T : Type} [LinearOrderedField T] (sched : List blocked_range)
    (x y : List T) (hx : x.length < 2 ^ 31) (hy : y.length < 2 ^ 31)
    (hs : IsPartition (magicfilter_range x y) sched) :
    magicfilter_range x y = min x.length y.length ∧
    ∃ res, magicfilter sched x y = some res ∧
      magicfilter sched (x.take (min x.length y.length)) (y.take (min x.length y.length))
        = some res ∧
      ∀ x2 y2 : List T, x2.take (min x.length y.length) = x.take (min x.length y.length) →
        y2.take (min x.length y.length) = y.take (min x.length y.length) →
        magicfilter sched x2 y2 = some res := by
  have hr : magicfilter_range x y = min x.length y.length :=
    magicfilter_range_small x y (by omega)
  rw [hr] at hs
  obtain ⟨res, h1, _⟩ := magicfilter_perm sched x y hs
  have hlen : (x.zip y).length = min x.length y.length := List.length_zip x y
  have key : ∀ x2 y2 : List T, x2.take (min x.length y.length) = x.take (min x.length y.length) →
      y2.take (min x.length y.length) = y.take (min x.length y.length) →
      magicfilter sched x2 y2 = some res := fun x2 y2 e1 e2 => by
    rw [magicfilter_agree (min x.length y.length) x y x2 y2 e1 e2 (by omega) sched hs.bounds, h1]
  exact ⟨hr, res, h1, key _ _ (by simp) (by simp), key⟩

theorem magicfilter_truncates_witness :
    ([(1 : ℚ), 3, 2, 7, 7]).length < 2 ^ 31 ∧ ([(2 : ℚ), 1, 5]).length < 2 ^ 31 ∧
    IsPartition (magicfilter_range [(1 : ℚ), 3, 2, 7, 7] [(2 : ℚ), 1, 5]) [⟨1, 3⟩, ⟨0, 1⟩] ∧
    magicfilter [⟨1, 3⟩, ⟨0, 1⟩] [(1 : ℚ), 3, 2, 7, 7] [2, 1, 5] = some [3, 5, 10, 2, 2] ∧
    (magicfilter_range [(1 : ℚ), 3, 2, 7, 7] [(2 : ℚ), 1, 5] = 3 ∧
    ∃ res, magicfilter [⟨1, 3⟩, ⟨0, 1⟩] [(1 : ℚ), 3, 2, 7, 7] [2, 1, 5] = some res ∧
      magicfilter [⟨1, 3⟩, ⟨0, 1⟩] ([(1 : ℚ), 3, 2, 7, 7].take 3) ([(2 : ℚ), 1, 5].take 3)
        = some res ∧
      ∀ x2 y2 : List ℚ, x2.take 3 = [(1 : ℚ), 3, 2, 7, 7].take 3 →
        y2.take 3 = [(2 : ℚ), 1, 5].take 3 →
        magicfilter [⟨1, 3⟩, ⟨0, 1⟩] x2 y2 = some res) :=
  ⟨by decide, by decide, ⟨[⟨0, 1⟩, ⟨1, 3⟩], by decide, by decide⟩,
   by norm_num [magicfilter, parallel_for, magicfilter_body, magicfilter_local, forChunk,
     forRange, magicfilter_step],
   magicfilter_truncates [⟨1, 3⟩, ⟨0, 1⟩] [(1 : ℚ), 3, 2, 7, 7] [2, 1, 5] (by decide) (by decide)
     ⟨[⟨0, 1⟩, ⟨1, 3⟩], by decide, by decide⟩⟩

/-! ## scanner -/

theorem inclusive_sums_length {T : Type} [Add T] : ∀ (l : List T) (s : T),
    (inclusive_sums s l).length = l.length
  | [], _ => rfl
  | v :: vs, s => by rw [inclusive_sums, List.length_cons, inclusive_sums_length vs, List.length_cons]

theorem inclusive_sums_append {T : Type} [Add T] : ∀ (l l2 : List T) (s : T),
    inclusive_sums s (l ++ l2) = inclusive_sums s l ++ inclusive_sums (l.foldl (fun a b => a + b) s) l2
  | [], _, _ => rfl
  | v :: vs, l2, s => by
    rw [List.cons_append, inclusive_sums, inclusive_sums, inclusive_sums_append vs, List.foldl_cons,
      List.cons_append]

theorem inclusive_sums_getElem? {T : Type} [AddMonoid T] : ∀ (l : List T) (s : T) (i : Nat),
    i < l.length → (inclusive_sums s l)[i]? = some (s + (l.take (i + 1)).sum)
  | [], _, _, h => by simp at h
  | v :: vs, s, 0, _ => by simp [inclusive_sums]
  | v :: vs, s, i + 1, h => by
    rw [inclusive_sums, List.getElem?_cons_succ,
      inclusive_sums_getElem? vs (s + v) i (by simpa using h), List.take_succ_cons, List.sum_cons,
      add_assoc]

theorem scanner_loop {T : Type} [Add T] (is_final : Bool) (post : List T) :
    ∀ (seg pre : List T) (s : T),
    forRange (scanner_step is_final) pre.length seg.length (s, pre ++ seg ++ post) =
      some (seg.foldl (fun a b => a + b) s,
        if is_final then pre ++ inclusive_sums s seg ++ post else pre ++ seg ++ post)
  | [], pre, s => by cases is_final <;> simp [forRange, inclusive_sums]
  | v :: vs, pre, s => by
    have hget : (pre ++ (v :: vs) ++ post)[pre.length]? = some v := by
      rw [List.append_assoc, List.getElem?_append_right (le_refl _)]
      simp
    have hset : ∀ w : T, (pre ++ (v :: vs) ++ post).set pre.length w
        = (pre ++ [w]) ++ vs ++ post := by
      intro w
      rw [List.append_assoc, List.set_append_right _ _ (le_refl _)]
      simp
    have hlen : ∀ w : T, (pre ++ [w]).length = pre.length + 1 := by simp
    rw [List.length_cons, forRange, scanner_step]
    simp only [hget, Option.some_bind]
    cases is_final
    · have ih := scanner_loop false post vs (pre ++ [v]) (s + v)
      rw [hlen] at ih
      simp only [Bool.false_eq_true, if_false] at ih ⊢
      rw [show pre ++ v :: vs ++ post = pre ++ [v] ++ vs ++ post by simp, ih, List.foldl_cons]
    · have ih := scanner_loop true post vs (pre ++ [s + v]) (s + v)
      rw [hlen] at ih
      simp only [if_true] at ih ⊢
      rw [hset, ih, List.foldl_cons, inclusive_sums]
      simp

theorem drop_eq_slice_append {α : Type} (l : List α) (b c : Nat) (hbc : b ≤ c) :
    l.drop b = (l.drop b).take (c - b) ++ l.drop c := by
  have h : (l.drop b).drop (c - b) = l.drop c := by
    rw [List.drop_drop]
    congr 1
    omega
  rw [← h, List.take_append_drop]

theorem scanner_body_spec {T : Type} [Add T] (is_final : Bool) (x pre : List T)
    (r : blocked_range) (s : T) (hr : r.begin ≤ r.end ∧ r.end ≤ x.length)
    (hpre : pre.length = r.begin) :
    scanner_body r s is_final (pre ++ x.drop r.begin) =
      some ((chunk_slice x r).foldl (fun a b => a + b) s,
        if is_final then pre ++ inclusive_sums s (chunk_slice x r) ++ x.drop r.end
        else pre ++ x.drop r.begin) := by
  have hlen : (chunk_slice x r).length = r.end - r.begin := by
    rw [chunk_slice, List.length_take, List.length_drop]
    omega
  have hx : x.drop r.begin = chunk_slice x r ++ x.drop r.end :=
    drop_eq_slice_append x r.begin r.end hr.1
  have h := scanner_loop is_final (x.drop r.end) (chunk_slice x r) pre s
  rw [hlen, hpre, List.append_assoc, ← hx] at h
  rw [scanner_body, if_neg (by omega), forChunk, h]

theorem pre_scan_spec {T : Type} [Add T] [Zero T] (x : List T) :
    ∀ sched : List (blocked_range × Bool),
    (∀ c ∈ sched, c.1.begin ≤ c.1.end ∧ c.1.end ≤ x.length) →
    pre_scan (0 : T) (fun r local_res is_final v => scanner_body r local_res is_final v) sched x =
      some (sched.map (fun c => (c.1, if c.2 = true then
        some ((chunk_slice x c.1).foldl (fun a b => a + b) 0) else none)), x)
  | [], _ => rfl
  | (r, true) :: rest, h => by
    have hb := scanner_body_spec false x (x.take r.begin) r (0 : T)
      (h (r, true) (List.mem_cons_self _ _))
      (by rw [List.length_take]; have := h (r, true) (List.mem_cons_self _ _); simp at this; omega)
    rw [List.take_append_drop] at hb
    simp only [Bool.false_eq_true, if_false] at hb
    rw [pre_scan, hb, Option.some_bind,
      pre_scan_spec x rest (fun c hc => h c (List.mem_cons_of_mem _ hc))]
    simp
  | (r, false) :: rest, h => by
    rw [pre_scan, pre_scan_spec x rest (fun c hc => h c (List.mem_cons_of_mem _ hc))]
    simp

theorem final_scan_spec {T : Type} [AddMonoid T] (x : List T) :
    ∀ (ms : List (blocked_range × Option T)) (b e : Nat) (pre : List T) (s : T),
    isContiguous b e (ms.map Prod.fst) = true → e ≤ x.length → pre.length = b →
    (∀ m ∈ ms, ∀ p, m.2 = some p → p = (chunk_slice x m.1).foldl (fun a b => a + b) 0) →
    final_scan (fun r local_res is_final v => scanner_body r local_res is_final v)
        (fun a b => a + b) ms s (pre ++ x.drop b) =
      some (((x.drop b).take (e - b)).foldl (fun a b => a + b) s,
        pre ++ inclusive_sums s ((x.drop b).take (e - b)) ++ x.drop e)
  | [], b, e, pre, s, hc, _, _, _ => by
    simp [isContiguous] at hc
    subst hc
    simp [final_scan, inclusive_sums]
  | (r, m) :: rest, b, e, pre, s, hc, he, hpre, hm => by
    rw [List.map_cons, isContiguous_cons] at hc
    obtain ⟨hb, hle, hrest⟩ := hc
    simp only at hb hle hrest
    subst hb
    have hce := isContiguous_le _ _ _ hrest
    have hbody := scanner_body_spec true x pre r s ⟨hle, by omega⟩ hpre
    simp only [if_true] at hbody
    have ih := fun s1 => final_scan_spec x rest r.end e
      (pre ++ inclusive_sums s (chunk_slice x r)) s1 hrest he
      (by rw [List.length_append, inclusive_sums_length, chunk_slice, List.length_take,
            List.length_drop]; omega)
      (fun m1 hm1 => hm m1 (List.mem_cons_of_mem _ hm1))
    have hsplit := slice_split x r.begin r.end e hle hce
    have hgoal : final_scan (fun r local_res is_final v => scanner_body r local_res is_final v)
        (fun a b => a + b) ((r, m) :: rest) s (pre ++ x.drop r.begin)
        = final_scan (fun r local_res is_final v => scanner_body r local_res is_final v)
          (fun a b => a + b) rest ((chunk_slice x r).foldl (fun a b => a + b) s)
          (pre ++ inclusive_sums s (chunk_slice x r) ++ x.drop r.end) := by
      cases m with
      | none => rw [final_scan, hbody, Option.some_bind]
      | some p =>
        have hp : s + p = (chunk_slice x r).foldl (fun a b => a + b) s := by
          have := hm (r, some p) (List.mem_cons_self _ _) p rfl
          simp only at this
          rw [this, foldl_add_eq, foldl_add_eq, zero_add]
        rw [final_scan, hbody, Option.some_bind]
        simp only
        rw [hp]
    rw [hgoal, ih, hsplit, List.foldl_append, inclusive_sums_append]
    simp [chunk_slice, List.append_assoc]

theorem scanner_spec {T : Type} [AddMonoid T] (sched : List (blocked_range × Bool))
    (x : List T) (h : isContiguous 0 x.length (sched.map Prod.fst) = true) :
    scanner sched x = some (x.sum, inclusive_sums 0 x) := by
  have hb : ∀ c ∈ sched, c.1.begin ≤ c.1.end ∧ c.1.end ≤ x.length := fun c hc => by
    have := isContiguous_bounds _ 0 x.length h c.1 (List.mem_map_of_mem _ hc)
    omega
  have hfin := final_scan_spec x
    (sched.map (fun c => (c.1, if c.2 = true then
      some ((chunk_slice x c.1).foldl (fun a b => a + b) 0) else none)))
    0 x.length [] 0 (by simpa [List.map_map, Function.comp_def] using h) (le_refl _) rfl
    (fun m hm p hp => by
      obtain ⟨c, _, rfl⟩ := List.mem_map.1 hm
      by_cases hc : c.2 = true
      · simp only [hc, if_true, Option.some.injEq] at hp
        exact hp.symm
      · simp [hc] at hp)
  rw [scanner, parallel_scan, pre_scan_spec x sched hb, Option.some_bind]
  simp only [List.drop_zero, List.nil_append, Nat.sub_zero, List.take_length, List.drop_length,
    List.append_nil] at hfin
  rw [hfin, foldl_add_eq, zero_add]

theorem sum_flatMap_eq {α T : Type} [AddMonoid T] (f : α → List T) : ∀ cs : List α,
    (cs.flatMap f).sum = (cs.map fun c => (f c).sum).sum
  | [] => rfl
  | c :: cs => by
    rw [List.flatMap_cons, List.sum_append, sum_flatMap_eq f cs, List.map_cons, List.sum_cons]

/-- Claim C1: for every vector over exact arithmetic and every partition of its index range
into contiguous chunks, whichever of them are first run with `is_final = false`, `scanner`
returns and leaves in `x` the sequential inclusive prefix sum of the original contents: the
length is unchanged and `x[i]` is `x_old[0] + ... + x_old[i]`. -/
theorem scanner_inclusive_sum {T : Type} [AddMonoid T] (sched : List (blocked_range × Bool))
    (x : List T) (h : isContiguous 0 x.length (sched.map Prod.fst) = true) :
    ∃ ret x1, scanner sched x = some (ret, x1) ∧ x1 = inclusive_sums 0 x ∧
      x1.length = x.length ∧ ∀ i, i < x.length → x1[i]? = some ((x.take (i + 1)).sum) := by
  refine ⟨_, _, scanner_spec sched x h, rfl, inclusive_sums_length x 0, fun i hi => ?_⟩
  rw [inclusive_sums_getElem? x 0 i hi, zero_add]

theorem scanner_inclusive_sum_witness :
    isContiguous 0 ([1, 2, 3, 4] : List Int).length
      (([(⟨0, 1⟩, false), (⟨1, 3⟩, true), (⟨3, 4⟩, true)] :
        List (blocked_range × Bool)).map Prod.fst) = true ∧
    scanner [(⟨0, 1⟩, false), (⟨1, 3⟩, true), (⟨3, 4⟩, true)] ([1, 2, 3, 4] : List Int)
      = some (10, [1, 3, 6, 10]) ∧
    ∃ ret x1, scanner [(⟨0, 1⟩, false), (⟨1, 3⟩, true), (⟨3, 4⟩, true)] ([1, 2, 3, 4] : List Int)
        = some (ret, x1) ∧ x1 = inclusive_sums 0 ([1, 2, 3, 4] : List Int) ∧
      x1.length = ([1, 2, 3, 4] : List Int).length ∧
      ∀ i, i < ([1, 2, 3, 4] : List Int).length →
        x1[i]? = some ((([1, 2, 3, 4] : List Int).take (i + 1)).sum) :=
  ⟨by decide, by decide,
   scanner_inclusive_sum [(⟨0, 1⟩, false), (⟨1, 3⟩, true), (⟨3, 4⟩, true)] ([1, 2, 3, 4] : List Int)
     (by decide)⟩

/-- Claim C7: for every non-empty vector and every partition of its index range into
chunks, the value `scanner` returns is the last element of the scanned vector, and it is the
sum of all original elements, which is the in-order sum of the sums of the chunks. -/
theorem scanner_total {T : Type} [AddMonoid T] (sched : List (blocked_range × Bool))
    (x : List T) (hne : x ≠ [])
    (h : isContiguous 0 x.length (sched.map Prod.fst) = true) :
    ∃ ret x1, scanner sched x = some (ret, x1) ∧ x1[x.length - 1]? = some ret ∧
      ret = x.sum ∧ ret = (sched.map fun c => (chunk_slice x c.1).sum).sum := by
  have hpos : 0 < x.length := List.length_pos.2 hne
  refine ⟨_, _, scanner_spec sched x h, ?_, rfl, ?_⟩
  · rw [inclusive_sums_getElem? x 0 (x.length - 1) (by omega), zero_add,
      show x.length - 1 + 1 = x.length by omega, List.take_length]
  · have h1 := sum_flatMap_eq (chunk_slice x) (sched.map Prod.fst)
    rw [isContiguous_flatMap_all x _ h, List.map_map] at h1
    exact h1

theorem scanner_total_witness :
    ([1, 2, 3, 4] : List Int) ≠ [] ∧
    scanner [(⟨0, 1⟩, false), (⟨1, 3⟩, true), (⟨3, 4⟩, false)] ([1, 2, 3, 4] : List Int)
      = some (10, [1, 3, 6, 10]) ∧
    ∃ ret x1, scanner [(⟨0, 1⟩, false), (⟨1, 3⟩, true), (⟨3, 4⟩, false)] ([1, 2, 3, 4] : List Int)
        = some (ret, x1) ∧ x1[([1, 2, 3, 4] : List Int).length - 1]? = some ret ∧
      ret = ([1, 2, 3, 4] : List Int).sum ∧
      ret = (([(⟨0, 1⟩, false), (⟨1, 3⟩, true), (⟨3, 4⟩, false)] :
        List (blocked_range × Bool)).map
          fun c => (chunk_slice ([1, 2, 3, 4] : List Int) c.1).sum).sum :=
  ⟨by decide, by decide,
   scanner_total [(⟨0, 1⟩, false), (⟨1, 3⟩, true), (⟨3, 4⟩, false)] ([1, 2, 3, 4] : List Int)
     (by decide) (by decide)⟩

/-! ## Failing loops -/

theorem forRange_none {σ : Type} (body : Nat → σ → Option σ) (inv : σ → Prop) (j : Nat)
    (hinv : ∀ i s s1, inv s → body i s = some s1 → inv s1)
    (hj : ∀ s, inv s → body j s = none) : ∀ (k b : Nat) (s : σ),
    b ≤ j → j < b + k → inv s → forRange body b k s = none
  | 0, b, _, h1, h2, _ => by omega
  | k + 1, b, s, h1, h2, hs => by
    rw [forRange]
    cases hb : body b s with
    | none => rfl
    | some s1 =>
      have hne : b ≠ j := fun e => by
        rw [e, hj s hs] at hb
        exact Option.noConfusion hb
      exact forRange_none body inv j hinv hj k (b + 1) s1 (by omega) (by omega)
        (hinv b s s1 hs hb)

theorem forRange_inv {σ : Type} (body : Nat → σ → Option σ) (inv : σ → Prop)
    (hinv : ∀ i s s1, inv s → body i s = some s1 → inv s1) : ∀ (k b : Nat) (s s1 : σ),
    inv s → forRange body b k s = some s1 → inv s1
  | 0, _, s, s1, hs, h => by
    rw [forRange, Option.some.injEq] at h
    exact h ▸ hs
  | k + 1, b, s, s1, hs, h => by
    rw [forRange] at h
    cases hb : body b s with
    | none => rw [hb] at h; exact Option.noConfusion h
    | some s2 =>
      rw [hb, Option.some_bind] at h
      exact forRange_inv body inv hinv k (b + 1) s2 s1 (hinv b s s2 hs hb) h

theorem parallel_for_none {σ : Type} (body : blocked_range → σ → Option σ) (inv : σ → Prop)
    (c : blocked_range) (hinv : ∀ r s s1, inv s → body r s = some s1 → inv s1)
    (hc : ∀ s, inv s → body c s = none) : ∀ (sched : List blocked_range) (s : σ),
    c ∈ sched → inv s → parallel_for sched body s = none
  | [], _, h, _ => by simp at h
  | r :: rs, s, h, hs => by
    simp only [parallel_for, List.foldlM_cons]
    cases hb : body r s with
    | none => rfl
    | some s1 =>
      have hne : c ≠ r := fun e => by
        rw [← e, hc s hs] at hb
        exact Option.noConfusion hb
      have hmem : c ∈ rs := by
        rcases List.mem_cons.1 h with e | h1
        · exact absurd e hne
        · exact h1
      exact parallel_for_none body inv c hinv hc rs s1 hmem (hinv r s s1 hs hb)

theorem parallel_reduce_none {V : Type} (identity : V) (body : blocked_range → V → Option V)
    (reduction : V → V → V) (c : blocked_range) (hc : ∀ v, body c v = none) :
    ∀ sched : ReduceSched, c ∈ sched.chunks →
    parallel_reduce identity body reduction sched = none
  | .fresh, h => by simp [ReduceSched.chunks] at h
  | .run s r, h => by
    rw [parallel_reduce]
    simp only [ReduceSched.chunks, List.mem_append, List.mem_singleton] at h
    rcases h with h | h
    · rw [parallel_reduce_none identity body reduction c hc s h]
      rfl
    · subst h
      cases parallel_reduce identity body reduction s with
      | none => rfl
      | some v => exact hc v
  | .join l r, h => by
    rw [parallel_reduce]
    simp only [ReduceSched.chunks, List.mem_append] at h
    rcases h with h | h
    · rw [parallel_reduce_none identity body reduction c hc l h]
      rfl
    · rw [parallel_reduce_none identity body reduction c hc r h]
      cases parallel_reduce identity body reduction l <;> rfl

theorem saxpy_short_y {T : Type} [Mul T] [Add T] (sched : List blocked_range) (a : T)
    (x y : List T) (h : IsPartition x.length sched) (hlt : y.length < x.length) :
    saxpy sched a x y = none := by
  obtain ⟨c, hc, hm⟩ := h.cover y.length hlt
  have hstep : ∀ i (s s1 : List T × List T), s.2 = y → saxpy_step a i s = some s1 → s1.2 = y := by
    intro i s s1 hs h1
    unfold saxpy_step at h1
    split at h1
    · rw [Option.some.injEq] at h1
      rw [← h1]
      exact hs
    · exact Option.noConfusion h1
  refine parallel_for_none (saxpy_body a) (fun s => s.2 = y) c
    (fun r s s1 hs h1 => forRange_inv _ (fun s => s.2 = y) hstep _ _ s s1 hs h1)
    (fun s hs => ?_) sched (x, y) hc rfl
  unfold blocked_range.Mem at hm
  refine forRange_none (saxpy_step a) (fun s => s.2 = y) y.length hstep (fun s1 hs1 => ?_)
    _ _ s hm.1 (by omega) hs
  have hnone : s1.2[y.length]? = none := by
    rw [hs1]
    exact List.getElem?_eq_none (le_refl _)
  unfold saxpy_step
  rw [hnone]
  cases s1.1[y.length]? <;> rfl

/-! ## Order and size of the output of magicfilter -/

theorem chunk_slice_zip {α β : Type} (x : List α) (y : List β) (r : blocked_range) :
    chunk_slice (x.zip y) r = (chunk_slice x r).zip (chunk_slice y r) := by
  unfold chunk_slice
  rw [List.zip_eq_zipWith, List.drop_zipWith, List.take_zipWith, ← List.zip_eq_zipWith]

/-- Claim C14: for every partition of the indices below the shorter length into chunks that
take the mutex in the order of `sched`, the result of `magicfilter` is the concatenation, in
that order, of the buffers of the chunks, and the buffer of a chunk is the output of the
sequential filter on the chunk (selected values in ascending index order, `y[i]` directly
followed by `x[i] * y[i]`); with a single chunk the result is the sequential reference. -/
theorem magicfilter_concat {T : Type} [LinearOrderedField T] (sched : List blocked_range)
    (x y : List T) (hs : IsPartition (min x.length y.length) sched) :
    magicfilter sched x y =
      some (sched.flatMap fun r => magicfilter_ref (chunk_slice x r) (chunk_slice y r)) ∧
    (∀ r ∈ sched, magicfilter_local x y r =
      some (magicfilter_ref (chunk_slice x r) (chunk_slice y r))) ∧
    magicfilter [⟨0, min x.length y.length⟩] x y = some (magicfilter_ref x y) := by
  have hlen : (x.zip y).length = min x.length y.length := List.length_zip x y
  have hb : ∀ r ∈ sched, r.begin ≤ r.end ∧ r.end ≤ (x.zip y).length := by
    rw [hlen]
    exact hs.bounds
  refine ⟨?_, fun r hr => ?_, ?_⟩
  · rw [magicfilter, magicfilter_parallel_for x y sched [] hb, List.nil_append]
    simp only [magicfilter_ref, chunk_slice_zip]
  · rw [magicfilter_local_spec x y r (hb r hr), magicfilter_ref, chunk_slice_zip]
  · rw [magicfilter, magicfilter_parallel_for x y _ []
      (fun r hr => by
        rw [List.mem_singleton] at hr
        subst hr
        exact ⟨Nat.zero_le _, by rw [hlen]⟩)]
    simp only [List.nil_append, List.flatMap_cons, List.flatMap_nil, List.append_nil,
      chunk_slice, List.drop_zero, Nat.sub_zero]
    rw [← hlen, List.take_length, magicfilter_ref]

theorem magicfilter_concat_witness :
    IsPartition (min ([1, 3, 2] : List ℚ).length ([2, 1, 5] : List ℚ).length) [⟨1, 3⟩, ⟨0, 1⟩] ∧
    magicfilter [⟨1, 3⟩, ⟨0, 1⟩] [(1 : ℚ), 3, 2] [2, 1, 5] = some [3, 5, 10, 2, 2] ∧
    magicfilter [⟨0, 3⟩] [(1 : ℚ), 3, 2] [2, 1, 5] = some [2, 2, 3, 5, 10] ∧
    (magicfilter [⟨1, 3⟩, ⟨0, 1⟩] [(1 : ℚ), 3, 2] [2, 1, 5] =
      some (([⟨1, 3⟩, ⟨0, 1⟩] : List blocked_range).flatMap fun r =>
        magicfilter_ref (chunk_slice [(1 : ℚ), 3, 2] r) (chunk_slice [(2 : ℚ), 1, 5] r)) ∧
    (∀ r ∈ ([⟨1, 3⟩, ⟨0, 1⟩] : List blocked_range),
      magicfilter_local [(1 : ℚ), 3, 2] [2, 1, 5] r =
        some (magicfilter_ref (chunk_slice [(1 : ℚ), 3, 2] r) (chunk_slice [(2 : ℚ), 1, 5] r))) ∧
    magicfilter [⟨0, min ([1, 3, 2] : List ℚ).length ([2, 1, 5] : List ℚ).length⟩]
      [(1 : ℚ), 3, 2] [2, 1, 5] = some (magicfilter_ref [(1 : ℚ), 3, 2] [2, 1, 5])) :=
  ⟨⟨[⟨0, 1⟩, ⟨1, 3⟩], by decide, by decide⟩,
   by norm_num [magicfilter, parallel_for, magicfilter_body, magicfilter_local, forChunk,
     forRange, magicfilter_step],
   by norm_num [magicfilter, parallel_for, magicfilter_body, magicfilter_local, forChunk,
     forRange, magicfilter_step],
   magicfilter_concat [⟨1, 3⟩, ⟨0, 1⟩] [(1 : ℚ), 3, 2] [2, 1, 5]
     ⟨[⟨0, 1⟩, ⟨1, 3⟩], by decide, by decide⟩⟩

theorem select_flatMap_length {T : Type} [LinearOrderedField T] : ∀ l : List (T × T),
    (l.flatMap fun p => select p.1 p.2).length =
      l.countP (fun p => decide (p.1 > p.2)) +
        2 * l.countP (fun p => decide (p.2 > p.1 ∧ p.2 > 1 / 2))
  | [] => rfl
  | p :: l => by
    rw [List.flatMap_cons, List.length_append, select_flatMap_length l, List.countP_cons,
      List.countP_cons]
    unfold select
    by_cases h1 : p.1 > p.2
    · have h2 : ¬ (p.2 > p.1 ∧ p.2 > 1 / 2) := fun h => lt_asymm h1 h.1
      simp only [h1, h2, if_true, if_false, decide_True, decide_False, List.length_singleton,
        Bool.false_eq_true]
      omega
    · by_cases h2 : p.2 > p.1 ∧ p.2 > 1 / 2
      · simp only [h1, h2, if_true, if_false, decide_True, decide_False, List.length_cons,
          List.length_nil, and_self, Bool.false_eq_true]
        omega
      · simp only [h1, h2, if_false, decide_False, List.length_nil, Bool.false_eq_true]
        omega

theorem magicfilter_ref_replicate {T : Type} [LinearOrderedField T] : ∀ n : Nat,
    (magicfilter_ref (List.replicate n (0 : T)) (List.replicate n (1 : T))).length = 2 * n
  | 0 => rfl
  | n + 1 => by
    have ih := magicfilter_ref_replicate (T := T) n
    have hsel : select (0 : T) 1 = [1, 0 * 1] := by
      unfold select
      norm_num
    unfold magicfilter_ref at ih ⊢
    rw [List.replicate_succ, List.replicate_succ, List.zip_cons_cons, List.flatMap_cons,
      List.length_append, ih, hsel]
    simp only [List.length_cons, List.length_nil]
    omega

/-- Claim C15: every index below the shorter length adds to the buffer one value (`x[i]`)
when `x[i] > y[i]`, two values (`y[i]` then `x[i] * y[i]`) when `y[i] > x[i]` and
`y[i] > 0.5`, and nothing otherwise, in particular when `x[i] = y[i]`.  So the length of the
result is the number of indices of the first kind plus twice the number of the second kind,
at most twice the shorter length, and for every length that bound is attained by an input. -/
theorem magicfilter_count {T : Type} [LinearOrderedField T] (sched : List blocked_range)
    (x y : List T) (hs : IsPartition (min x.length y.length) sched) :
    (∀ (i : Nat) (xi yi : T) (acc : List T), x[i]? = some xi → y[i]? = some yi →
      (xi > yi → magicfilter_step x y i acc = some (acc ++ [xi])) ∧
      (yi > xi ∧ yi > 1 / 2 → magicfilter_step x y i acc = some (acc ++ [yi, xi * yi])) ∧
      (¬ xi > yi → ¬ (yi > xi ∧ yi > 1 / 2) → magicfilter_step x y i acc = some acc) ∧
      (xi = yi → magicfilter_step x y i acc = some acc)) ∧
    (∃ res, magicfilter sched x y = some res ∧
      res.length = (x.zip y).countP (fun p => decide (p.1 > p.2)) +
        2 * (x.zip y).countP (fun p => decide (p.2 > p.1 ∧ p.2 > 1 / 2)) ∧
      res.length ≤ 2 * min x.length y.length) ∧
    ∃ x0 y0 res0 : List T, x0.length = min x.length y.length ∧ y0.length = min x.length y.length ∧
      magicfilter sched x0 y0 = some res0 ∧ res0.length = 2 * min x.length y.length := by
  refine ⟨fun i xi yi acc hx hy => ?_, ?_, ?_⟩
  · have hstep : ∀ c1 c2 : Prop, ∀ [Decidable c1] [Decidable c2],
        (xi > yi ↔ c1) → ((yi > xi ∧ yi > 1 / 2) ↔ c2) →
        magicfilter_step x y i acc =
          if c1 then some (acc ++ [xi])
          else if c2 then some (acc ++ [yi, xi * yi]) else some acc := by
      intro c1 c2 _ _ e1 e2
      unfold magicfilter_step
      rw [hx, hy]
      simp only [e1, e2, List.append_assoc, List.singleton_append]
    refine ⟨fun h1 => ?_, fun h2 => ?_, fun h1 h2 => ?_, fun he => ?_⟩
    · rw [hstep True (yi > xi ∧ yi > 1 / 2) (iff_true_intro h1) Iff.rfl, if_pos trivial]
    · have h1 : ¬ xi > yi := fun h => lt_asymm h h2.1
      rw [hstep False True (iff_false_intro h1) (iff_true_intro h2), if_neg not_false,
        if_pos trivial]
    · rw [hstep False False (iff_false_intro h1) (iff_false_intro h2), if_neg not_false,
        if_neg not_false]
    · subst he
      rw [hstep False False (iff_false_intro (lt_irrefl _))
        (iff_false_intro fun h => lt_irrefl _ h.1), if_neg not_false, if_neg not_false]
  · obtain ⟨res, h1, p1⟩ := magicfilter_perm sched x y hs
    refine ⟨res, h1, ?_, ?_⟩
    · rw [p1.length_eq, magicfilter_ref, select_flatMap_length]
    · rw [p1.length_eq, magicfilter_ref, ← List.length_zip x y]
      exact flatMap_length_le (fun p : T × T => select p.1 p.2) 2
        (fun p => select_length_le p.1 p.2) _
  · obtain ⟨res0, h1, p1⟩ := magicfilter_perm sched
      (List.replicate (min x.length y.length) (0 : T))
      (List.replicate (min x.length y.length) (1 : T)) (by simpa using hs)
    exact ⟨_, _, res0, List.length_replicate _ _, List.length_replicate _ _, h1, by
      rw [p1.length_eq, magicfilter_ref_replicate]⟩

theorem magicfilter_count_witness :
    IsPartition (min ([1, 3, 2] : List ℚ).length ([2, 1, 5] : List ℚ).length) [⟨1, 3⟩, ⟨0, 1⟩] ∧
    magicfilter [⟨1, 3⟩, ⟨0, 1⟩] [(1 : ℚ), 3, 2] [2, 1, 5] = some [3, 5, 10, 2, 2] ∧
    ((∀ (i : Nat) (xi yi : ℚ) (acc : List ℚ), [(1 : ℚ), 3, 2][i]? = some xi →
        [(2 : ℚ), 1, 5][i]? = some yi →
      (xi > yi → magicfilter_step [(1 : ℚ), 3, 2] [2, 1, 5] i acc = some (acc ++ [xi])) ∧
      (yi > xi ∧ yi > 1 / 2 →
        magicfilter_step [(1 : ℚ), 3, 2] [2, 1, 5] i acc = some (acc ++ [yi, xi * yi])) ∧
      (¬ xi > yi → ¬ (yi > xi ∧ yi > 1 / 2) →
        magicfilter_step [(1 : ℚ), 3, 2] [2, 1, 5] i acc = some acc) ∧
      (xi = yi → magicfilter_step [(1 : ℚ), 3, 2] [2, 1, 5] i acc = some acc)) ∧
    (∃ res, magicfilter [⟨1, 3⟩, ⟨0, 1⟩] [(1 : ℚ), 3, 2] [2, 1, 5] = some res ∧
      res.length = ([(1 : ℚ), 3, 2].zip [(2 : ℚ), 1, 5]).countP (fun p => decide (p.1 > p.2)) +
        2 * ([(1 : ℚ), 3, 2].zip [(2 : ℚ), 1, 5]).countP
          (fun p => decide (p.2 > p.1 ∧ p.2 > 1 / 2)) ∧
      res.length ≤ 2 * min ([1, 3, 2] : List ℚ).length ([2, 1, 5] : List ℚ).length) ∧
    ∃ x0 y0 res0 : List ℚ, x0.length = min ([1, 3, 2] : List ℚ).length ([2, 1, 5] : List ℚ).length ∧
      y0.length = min ([1, 3, 2] : List ℚ).length ([2, 1, 5] : List ℚ).length ∧
      magicfilter [⟨1, 3⟩, ⟨0, 1⟩] x0 y0 = some res0 ∧
      res0.length = 2 * min ([1, 3, 2] : List ℚ).length ([2, 1, 5] : List ℚ).length) :=
  ⟨⟨[⟨0, 1⟩, ⟨1, 3⟩], by decide, by decide⟩,
   by norm_num [magicfilter, parallel_for, magicfilter_body, magicfilter_local, forChunk,
     forRange, magicfilter_step],
   magicfilter_count [⟨1, 3⟩, ⟨0, 1⟩] [(1 : ℚ), 3, 2] [2, 1, 5]
     ⟨[⟨0, 1⟩, ⟨1, 3⟩], by decide, by decide⟩⟩

/-! ## The chunk body of scanner -/

/-- Claim C16: run on a chunk `[b, e)` inside the vector with incoming value `s`, the chunk
body of `scanner` with `is_final = false` leaves `x` as it is and returns
`s + x[b] + ... + x[e-1]`; with `is_final = true` it returns the same value, stores
`s + x[b] + ... + x[i]` at every index `i` of the chunk and leaves every other element as it
is. -/
theorem scanner_body_frame {T : Type} [AddMonoid T] (r : blocked_range) (s : T) (x : List T)
    (hr : r.begin ≤ r.end ∧ r.end ≤ x.length) :
    scanner_body r s false x = some (s + (chunk_slice x r).sum, x) ∧
    ∃ x1, scanner_body r s true x = some (s + (chunk_slice x r).sum, x1) ∧
      x1.length = x.length ∧
      (∀ i, r.Mem i → x1[i]? = some (s + ((x.drop r.begin).take (i - r.begin + 1)).sum)) ∧
      (∀ i, ¬ r.Mem i → x1[i]? = x[i]?) := by
  have hpre : (x.take r.begin).length = r.begin := by
    rw [List.length_take]
    omega
  have hslice : (chunk_slice x r).length = r.end - r.begin := by
    rw [chunk_slice, List.length_take, List.length_drop]
    omega
  have hf := scanner_body_spec false x (x.take r.begin) r s hr hpre
  have ht := scanner_body_spec true x (x.take r.begin) r s hr hpre
  rw [List.take_append_drop, foldl_add_eq] at hf ht
  simp only [Bool.false_eq_true, if_false] at hf
  simp only [if_true] at ht
  have hmid : (x.take r.begin ++ inclusive_sums s (chunk_slice x r)).length = r.end := by
    rw [List.length_append, hpre, inclusive_sums_length, hslice]
    omega
  refine ⟨hf, _, ht, ?_, fun i hi => ?_, fun i hi => ?_⟩
  · rw [List.length_append, hmid, List.length_drop]
    omega
  · unfold blocked_range.Mem at hi
    rw [List.getElem?_append_left (by rw [hmid]; exact hi.2),
      List.getElem?_append_right (by rw [hpre]; exact hi.1), hpre,
      inclusive_sums_getElem? _ s (i - r.begin) (by rw [hslice]; omega), chunk_slice,
      List.take_take, Nat.min_eq_left (by omega)]
  · unfold blocked_range.Mem at hi
    by_cases hlt : i < r.begin
    · rw [List.getElem?_append_left (by rw [hmid]; omega),
        List.getElem?_append_left (by rw [hpre]; exact hlt), List.getElem?_take_of_lt hlt]
    · have hge : r.end ≤ i := by omega
      rw [List.getElem?_append_right (by rw [hmid]; exact hge), hmid, List.getElem?_drop]
      congr 1
      omega

theorem scanner_body_frame_witness :
    ((⟨1, 3⟩ : blocked_range).begin ≤ (⟨1, 3⟩ : blocked_range).end ∧
      (⟨1, 3⟩ : blocked_range).end ≤ ([1, 2, 3, 4] : List Int).length) ∧
    scanner_body ⟨1, 3⟩ (10 : Int) true [1, 2, 3, 4] = some (15, [1, 12, 15, 4]) ∧
    (scanner_body ⟨1, 3⟩ (10 : Int) false [1, 2, 3, 4] =
        some (10 + (chunk_slice ([1, 2, 3, 4] : List Int) ⟨1, 3⟩).sum, [1, 2, 3, 4]) ∧
    ∃ x1, scanner_body ⟨1, 3⟩ (10 : Int) true [1, 2, 3, 4] =
        some (10 + (chunk_slice ([1, 2, 3, 4] : List Int) ⟨1, 3⟩).sum, x1) ∧
      x1.length = ([1, 2, 3, 4] : List Int).length ∧
      (∀ i, (⟨1, 3⟩ : blocked_range).Mem i → x1[i]? = some (10 +
        ((([1, 2, 3, 4] : List Int).drop (⟨1, 3⟩ : blocked_range).begin).take
          (i - (⟨1, 3⟩ : blocked_range).begin + 1)).sum)) ∧
      (∀ i, ¬ (⟨1, 3⟩ : blocked_range).Mem i → x1[i]? = ([1, 2, 3, 4] : List Int)[i]?)) :=
  ⟨by decide, by decide, scanner_body_frame ⟨1, 3⟩ (10 : Int) [1, 2, 3, 4] (by decide)⟩

/-! ## Narrowing to the int accumulator -/

theorem trunc_to_int_intCast (k : Int) : trunc_to_int (k : ℚ) = k := by
  unfold trunc_to_int
  split_ifs <;> simp

theorem mem_chunk_slice {α : Type} (l : List α) (r : blocked_range) (p : α)
    (h : p ∈ chunk_slice l r) : p ∈ l :=
  List.mem_of_mem_drop (List.mem_of_mem_take h)

theorem sqrtdot_step_eq {T : Type} [Ring T] (x y : List T) (i : Nat) (s : T) :
    sqrtdot_step x y i s =
      ((List.zipWith (fun u v => u * v) x y)[i]?).map (fun v => s + v) := by
  rw [List.getElem?_zipWith, sqrtdot_step]
  cases x[i]? <;> cases y[i]? <;> rfl

theorem sqrtdot_body_spec {T : Type} [Ring T] (x y : List T) (r : blocked_range) (s : T)
    (hr : r.begin ≤ r.end ∧ r.end ≤ (List.zipWith (fun u v => u * v) x y).length) :
    sqrtdot_body x y r s =
      some (s + (chunk_slice (List.zipWith (fun u v => u * v) x y) r).sum) := by
  rw [sqrtdot_body, forChunk_read _ (fun s v => s + v) _ (sqrtdot_step_eq x y) r s hr,
    foldl_add_eq]

theorem sqrtdot_returns {T : Type} [Ring T] (narrow : T → Int) (x y : List T) :
    ∀ sched : ReduceSched,
    (∀ r ∈ sched.chunks,
      r.begin ≤ r.end ∧ r.end ≤ (List.zipWith (fun u v => u * v) x y).length) →
    ∃ v, parallel_reduce 0 (sqrtdot_real_body narrow x y) (sqrtdot_reduction narrow) sched
      = some v
  | .fresh, _ => ⟨0, rfl⟩
  | .run s r, h => by
    obtain ⟨v, hv⟩ := sqrtdot_returns narrow x y s
      (fun c hc => h c (by simp [ReduceSched.chunks, hc]))
    rw [parallel_reduce, hv, Option.some_bind, sqrtdot_real_body,
      sqrtdot_body_spec x y r _ (h r (by simp [ReduceSched.chunks])), Option.map_some']
    exact ⟨_, rfl⟩
  | .join l r, h => by
    obtain ⟨a, ha⟩ := sqrtdot_returns narrow x y l
      (fun c hc => h c (by simp [ReduceSched.chunks, hc]))
    obtain ⟨b, hb⟩ := sqrtdot_returns narrow x y r
      (fun c hc => h c (by simp [ReduceSched.chunks, hc]))
    rw [parallel_reduce, ha, hb, Option.some_bind, Option.map_some']
    exact ⟨_, rfl⟩

theorem trunc_to_int_half : trunc_to_int 2⁻¹ = 0 := by
  unfold trunc_to_int
  rw [if_pos (by norm_num), Int.floor_eq_iff]
  norm_num

theorem trunc_to_int_zero : trunc_to_int 0 = 0 := by
  have := trunc_to_int_intCast 0
  simpa using this

theorem trunc_to_int_one : trunc_to_int 1 = 1 := by
  have := trunc_to_int_intCast 1
  simpa using this

/-- Claim C3, the failing input: on `x = [1/2, 1/2]`, `y = [1, 1]`, with the truncating
conversion of a floating-point value to the `int` accumulator, `sqrtdot` accumulates `1` when
the range is run as one chunk and `0` when it is run as two chunks, while the sequential sum
of the products is `1`. -/
theorem sqrtdot_sum_chunk_dependent :
    sqrtdot_sum trunc_to_int (.run .fresh ⟨0, 2⟩) [1 / 2, 1 / 2] [1, 1] = some 1 ∧
    sqrtdot_sum trunc_to_int (.join (.run .fresh ⟨0, 1⟩) (.run .fresh ⟨1, 2⟩))
      [1 / 2, 1 / 2] [1, 1] = some 0 ∧
    dot_ref [(1 / 2 : ℚ), 1 / 2] [1, 1] = 1 := by
  have e : (2⁻¹ : ℚ) + 2⁻¹ = 1 := by norm_num
  refine ⟨?_, ?_, ?_⟩
  · simp [sqrtdot_sum, parallel_reduce, sqrtdot_real_body, sqrtdot_body, forChunk, forRange,
      sqrtdot_step, e, trunc_to_int_one]
  · simp [sqrtdot_sum, parallel_reduce, sqrtdot_real_body, sqrtdot_body, forChunk, forRange,
      sqrtdot_step, sqrtdot_reduction, trunc_to_int_half, trunc_to_int_zero]
  · norm_num [dot_ref]

/-! ## minvalue -/

theorem minvalue_step_eq {T : Type} [LinearOrderedRing T] (x : List T) (i : Nat) (s : T) :
    minvalue_step x i s = (x[i]?).map (fun v => min s v) := by
  rw [minvalue_step]
  cases x[i]? with
  | none => rfl
  | some v =>
    simp only [Option.map_some', Option.some.injEq]
    by_cases h : v < s
    · rw [if_pos h, min_eq_right (le_of_lt h)]
    · rw [if_neg h, min_eq_left (not_lt.1 h)]

theorem minvalue_body_spec {T : Type} [LinearOrderedRing T] (x : List T) (r : blocked_range)
    (s : T) (hr : r.begin ≤ r.end ∧ r.end ≤ x.length) :
    minvalue_body x r s = some ((chunk_slice x r).foldl (fun a v => min a v) s) := by
  rw [minvalue_body, forChunk_read x (fun a v => min a v) _ (minvalue_step_eq x) r s hr]

theorem parallel_reduce_fixed {V : Type} (identity : V) (body : blocked_range → V → Option V)
    (reduction : V → V → V) (hred : reduction identity identity = identity) :
    ∀ sched : ReduceSched, (∀ r ∈ sched.chunks, body r identity = some identity) →
    parallel_reduce identity body reduction sched = some identity
  | .fresh, _ => rfl
  | .run s r, h => by
    rw [parallel_reduce, parallel_reduce_fixed identity body reduction hred s
      (fun c hc => h c (by simp [ReduceSched.chunks, hc])), Option.some_bind]
    exact h r (by simp [ReduceSched.chunks])
  | .join l r, h => by
    rw [parallel_reduce, parallel_reduce_fixed identity body reduction hred l
      (fun c hc => h c (by simp [ReduceSched.chunks, hc])),
      parallel_reduce_fixed identity body reduction hred r
      (fun c hc => h c (by simp [ReduceSched.chunks, hc])), Option.some_bind,
      Option.map_some', hred]

theorem foldl_min_nonneg {T : Type} [LinearOrderedRing T] : ∀ l : List T,
    (∀ v ∈ l, 0 ≤ v) → l.foldl (fun a v => min a v) 0 = 0
  | [], _ => rfl
  | v :: vs, h => by
    rw [List.foldl_cons, min_eq_left (h v (List.mem_cons_self _ _))]
    exact foldl_min_nonneg vs (fun w hw => h w (List.mem_cons_of_mem _ hw))

theorem minvalue_nonneg {T : Type} [LinearOrderedRing T] (narrow : T → Int)
    (h0 : narrow 0 = 0) (sched : ReduceSched) (x : List T) (hx : ∀ v ∈ x, 0 ≤ v)
    (h : ∀ r ∈ sched.chunks, r.begin ≤ r.end ∧ r.end ≤ x.length) :
    minvalue narrow sched x = some 0 := by
  rw [minvalue, parallel_reduce_fixed 0 _ _ (by simp [minvalue_reduction, h0]) sched
    (fun r hr => by
      rw [minvalue_real_body, Int.cast_zero, minvalue_body_spec x r 0 (h r hr),
        foldl_min_nonneg _ (fun v hv => hx v (mem_chunk_slice x r v hv)), Option.map_some',
        h0])]
  simp

/-- Claim C2, the failing input: on the all-positive vector `[3, 1, 4]`, at every element
type and for every execution, `minvalue` returns `0`, the identity handed to the reduction,
which is not an element of the vector (its least element is `1`). -/
theorem minvalue_positive_input {T : Type} [LinearOrderedRing T] (narrow : T → Int)
    (h0 : narrow 0 = 0) (sched : ReduceSched)
    (h : IsPartition ([3, 1, 4] : List T).length sched.chunks) :
    minvalue narrow sched [3, 1, 4] = some 0 ∧ (0 : T) ∉ ([3, 1, 4] : List T) := by
  refine ⟨minvalue_nonneg narrow h0 sched [3, 1, 4] (fun v hv => ?_) h.bounds, by simp⟩
  simp only [List.mem_cons, List.mem_singleton, List.not_mem_nil, or_false] at hv
  rcases hv with e | e | e <;> rw [e] <;> norm_num

theorem minvalue_positive_input_witness :
    trunc_to_int 0 = 0 ∧
    IsPartition ([3, 1, 4] : List ℚ).length
      (ReduceSched.join (.run .fresh ⟨2, 3⟩) (.run (.run .fresh ⟨0, 1⟩) ⟨1, 2⟩)).chunks ∧
    minvalue trunc_to_int (.join (.run .fresh ⟨2, 3⟩) (.run (.run .fresh ⟨0, 1⟩) ⟨1, 2⟩))
      [3, 1, 4] = some 0 ∧
    (0 : ℚ) ∉ ([3, 1, 4] : List ℚ) :=
  ⟨trunc_to_int_zero, ⟨[⟨0, 1⟩, ⟨1, 2⟩, ⟨2, 3⟩], by decide, by decide⟩,
   minvalue_positive_input trunc_to_int trunc_to_int_zero
     (.join (.run .fresh ⟨2, 3⟩) (.run (.run .fresh ⟨0, 1⟩) ⟨1, 2⟩))
     ⟨[⟨0, 1⟩, ⟨1, 2⟩, ⟨2, 3⟩], by decide, by decide⟩⟩

/-! ## Empty input -/

/-- Claim C11: on empty input, for every execution over the empty index range, every
primitive returns its identity or an empty result and no vector gets an element: `fill` and
`saxpy` leave the empty vector empty, the sum accumulated by `sqrtdot` is `0`, `minvalue`
returns `0`, `magicfilter` returns the empty vector when either input is empty, and `scanner`
returns zero and leaves `x` empty. -/
theorem empty_input {T : Type} [LinearOrderedField T] {R : Type} [LinearOrderedRing R]
    (narrow : R → Int) (h0 : narrow 0 = 0) (sched : List blocked_range)
    (rs : ReduceSched) (ss : List (blocked_range × Bool)) (func : Nat → T) (a : T)
    (y : List T) (yr : List R) (h : IsPartition 0 sched) (hr : IsPartition 0 rs.chunks)
    (hss : isContiguous 0 0 (ss.map Prod.fst) = true) :
    fill sched ([] : List T) func = some ([], []) ∧
    saxpy sched a [] y = some ([], y) ∧
    sqrtdot_sum narrow rs [] yr = some 0 ∧
    minvalue narrow rs [] = some 0 ∧
    magicfilter sched [] y = some [] ∧
    magicfilter sched y [] = some [] ∧
    scanner ss ([] : List T) = some (0, []) := by
  have hempty : ∀ r ∈ rs.chunks, r.end - r.begin = 0 := fun r hr1 => by
    have := hr.bounds r hr1
    simp only [List.length_nil] at this
    omega
  refine ⟨?_, ?_, ?_, ?_, ?_, ?_, ?_⟩
  · obtain ⟨arr1, h1, h2, _⟩ := fill_parallel_for func sched [] h.bounds
    have : arr1 = [] := List.length_eq_zero.1 h2
    subst this
    simp [fill, h1]
  · obtain ⟨x1, h1, h2, _⟩ :=
      saxpy_parallel_for a y sched [] h.bounds h.pairwise (Nat.zero_le _)
    have : x1 = [] := List.length_eq_zero.1 h2
    subst this
    exact h1
  · rw [sqrtdot_sum, parallel_reduce_fixed 0 _ _
      (by simp [sqrtdot_reduction, h0]) rs (fun r hr1 => by
        simp [sqrtdot_real_body, sqrtdot_body, forChunk, hempty r hr1, forRange, h0])]
    simp
  · rw [minvalue, parallel_reduce_fixed 0 _ _
      (by simp [minvalue_reduction, h0]) rs (fun r hr1 => by
        simp [minvalue_real_body, minvalue_body, forChunk, hempty r hr1, forRange, h0])]
    simp
  · obtain ⟨res, h1, p1⟩ := magicfilter_perm sched [] y (by simpa using h)
    have : res = [] := by simpa [magicfilter_ref] using p1
    rw [h1, this]
  · obtain ⟨res, h1, p1⟩ := magicfilter_perm sched y [] (by simpa using h)
    have : res = [] := by simpa [magicfilter_ref] using p1
    rw [h1, this]
  · have := scanner_spec ss ([] : List T) hss
    simpa [inclusive_sums] using this

theorem empty_input_witness :
    trunc_to_int 0 = 0 ∧ IsPartition 0 [] ∧ IsPartition 0 ReduceSched.fresh.chunks ∧
    (fill [] ([] : List ℚ) (fun i => (i : ℚ)) = some ([], []) ∧
    saxpy [] (2 : ℚ) [] [1, 2] = some ([], [1, 2]) ∧
    sqrtdot_sum trunc_to_int .fresh [] [5] = some 0 ∧
    minvalue trunc_to_int .fresh [] = some 0 ∧
    magicfilter [] [] [(1 : ℚ), 2] = some [] ∧
    magicfilter [] [(1 : ℚ), 2] [] = some [] ∧
    scanner [] ([] : List ℚ) = some (0, [])) :=
  ⟨trunc_to_int_zero, ⟨[], by decide, by decide⟩, ⟨[], by decide, by decide⟩,
   empty_input trunc_to_int trunc_to_int_zero [] .fresh [] (fun i => (i : ℚ)) (2 : ℚ) [1, 2] [5]
     ⟨[], by decide, by decide⟩ ⟨[], by decide, by decide⟩ (by decide)⟩

/-! ## Vectors of different lengths in saxpy and sqrtdot -/

theorem sqrtdot_short_y {T : Type} [Ring T] (narrow : T → Int) (sched : ReduceSched)
    (x y : List T) (h : IsPartition x.length sched.chunks) (hlt : y.length < x.length) :
    sqrtdot_sum narrow sched x y = none := by
  obtain ⟨c, hc, hm⟩ := h.cover y.length hlt
  have hbody : ∀ v : T, sqrtdot_body x y c v = none := by
    intro v
    unfold blocked_range.Mem at hm
    refine forRange_none (sqrtdot_step x y) (fun _ => True) y.length (fun _ _ _ _ _ => trivial)
      (fun s _ => ?_) _ _ v hm.1 (by omega) trivial
    have hnone : y[y.length]? = none := List.getElem?_eq_none (le_refl _)
    unfold sqrtdot_step
    rw [hnone]
    cases x[y.length]? <;> rfl
  rw [sqrtdot_sum, parallel_reduce_none 0 (sqrtdot_real_body narrow x y) _ c
    (fun v => by rw [sqrtdot_real_body, hbody]; rfl) sched hc]
  rfl

/-- Claim C13: for every partition of the index range of `x` into chunks, when the two
vectors have equal length every index of every chunk of `saxpy` and of `sqrtdot` is inside
both vectors and both functions return (the out-of-bounds result `none` is not reached);
when `y` is shorter than `x`, some chunk holds an index at which the read of `y` is outside
its bounds, and both functions have the out-of-bounds result. -/
theorem saxpy_sqrtdot_in_bounds {T : Type} [LinearOrderedRing T] (narrow : T → Int)
    (sched : List blocked_range) (rs : ReduceSched) (a : T)
    (x y : List T) (h : IsPartition x.length sched) (hr : IsPartition x.length rs.chunks) :
    (x.length = y.length →
      (∀ r ∈ sched ++ rs.chunks, ∀ i, r.Mem i → i < x.length ∧ i < y.length) ∧
      (∃ x1, saxpy sched a x y = some (x1, y)) ∧ ∃ v, sqrtdot_sum narrow rs x y = some v) ∧
    (y.length < x.length →
      (∃ r ∈ sched, ∃ i, r.Mem i ∧ i < x.length ∧ y[i]? = none) ∧
      (∃ r ∈ rs.chunks, ∃ i, r.Mem i ∧ i < x.length ∧ y[i]? = none) ∧
      saxpy sched a x y = none ∧ sqrtdot_sum narrow rs x y = none) := by
  refine ⟨fun hxy => ⟨fun r hr1 i hi => ?_, ?_, ?_⟩, fun hlt => ⟨?_, ?_, ?_, ?_⟩⟩
  · have hb : r.end ≤ x.length := by
      rcases List.mem_append.1 hr1 with h1 | h1
      · exact (h.bounds r h1).2
      · exact (hr.bounds r h1).2
    unfold blocked_range.Mem at hi
    omega
  · obtain ⟨x1, h1, _⟩ := saxpy_parallel_for a y sched x h.bounds h.pairwise (le_of_eq hxy)
    exact ⟨x1, h1⟩
  · have hlen : (List.zipWith (fun u v => u * v) x y).length = x.length := by
      rw [List.length_zipWith]
      omega
    obtain ⟨v, hv⟩ := sqrtdot_returns narrow x y rs (by rw [hlen]; exact hr.bounds)
    exact ⟨(v : T), by rw [sqrtdot_sum, hv]; rfl⟩
  · obtain ⟨c, hc, hm⟩ := h.cover y.length hlt
    exact ⟨c, hc, y.length, hm, hlt, List.getElem?_eq_none (le_refl _)⟩
  · obtain ⟨c, hc, hm⟩ := hr.cover y.length hlt
    exact ⟨c, hc, y.length, hm, hlt, List.getElem?_eq_none (le_refl _)⟩
  · exact saxpy_short_y sched a x y h hlt
  · exact sqrtdot_short_y narrow rs x y hr hlt

theorem saxpy_sqrtdot_in_bounds_witness :
    IsPartition ([1, 2, 3] : List ℚ).length [⟨1, 3⟩, ⟨0, 1⟩] ∧
    IsPartition ([1, 2, 3] : List ℚ).length
      (ReduceSched.join (.run .fresh ⟨1, 3⟩) (.run .fresh ⟨0, 1⟩)).chunks ∧
    ([1, 2, 3] : List ℚ).length = ([4, 5, 6] : List ℚ).length ∧
    ([4, 5] : List ℚ).length < ([1, 2, 3] : List ℚ).length ∧
    ((∀ r ∈ ([⟨1, 3⟩, ⟨0, 1⟩] : List blocked_range) ++
          (ReduceSched.join (.run .fresh ⟨1, 3⟩) (.run .fresh ⟨0, 1⟩)).chunks,
        ∀ i, r.Mem i → i < ([1, 2, 3] : List ℚ).length ∧ i < ([4, 5, 6] : List ℚ).length) ∧
      (∃ x1, saxpy [⟨1, 3⟩, ⟨0, 1⟩] (2 : ℚ) [1, 2, 3] [4, 5, 6] = some (x1, [4, 5, 6])) ∧
      ∃ v, sqrtdot_sum trunc_to_int (.join (.run .fresh ⟨1, 3⟩) (.run .fresh ⟨0, 1⟩))
        [1, 2, 3] [4, 5, 6] = some v) ∧
    ((∃ r ∈ ([⟨1, 3⟩, ⟨0, 1⟩] : List blocked_range), ∃ i, r.Mem i ∧
        i < ([1, 2, 3] : List ℚ).length ∧ ([4, 5] : List ℚ)[i]? = none) ∧
      (∃ r ∈ (ReduceSched.join (.run .fresh ⟨1, 3⟩) (.run .fresh ⟨0, 1⟩)).chunks, ∃ i,
        r.Mem i ∧ i < ([1, 2, 3] : List ℚ).length ∧ ([4, 5] : List ℚ)[i]? = none) ∧
      saxpy [⟨1, 3⟩, ⟨0, 1⟩] (2 : ℚ) [1, 2, 3] [4, 5] = none ∧
      sqrtdot_sum trunc_to_int (.join (.run .fresh ⟨1, 3⟩) (.run .fresh ⟨0, 1⟩))
        [1, 2, 3] [4, 5] = none) :=
  ⟨⟨[⟨0, 1⟩, ⟨1, 3⟩], by decide, by decide⟩, ⟨[⟨0, 1⟩, ⟨1, 3⟩], by decide, by decide⟩,
   by decide, by decide,
   (saxpy_sqrtdot_in_bounds trunc_to_int [⟨1, 3⟩, ⟨0, 1⟩]
     (.join (.run .fresh ⟨1, 3⟩) (.run .fresh ⟨0, 1⟩)) 2 [1, 2, 3] [4, 5, 6]
     ⟨[⟨0, 1⟩, ⟨1, 3⟩], by decide, by decide⟩ ⟨[⟨0, 1⟩, ⟨1, 3⟩], by decide, by decide⟩).1
     (by decide),
   (saxpy_sqrtdot_in_bounds trunc_to_int [⟨1, 3⟩, ⟨0, 1⟩]
     (.join (.run .fresh ⟨1, 3⟩) (.run .fresh ⟨0, 1⟩)) 2 [1, 2, 3] [4, 5]
     ⟨[⟨0, 1⟩, ⟨1, 3⟩], by decide, by decide⟩ ⟨[⟨0, 1⟩, ⟨1, 3⟩], by decide, by decide⟩).2
     (by decide)⟩

/-! ## What minvalue computes -/

end Hw06
